import Mathlib

/-!
Verification of the GraphCalc invariant-computation core.

The Python source is shallowly embedded: graphs are Boolean adjacency
matrices over `Fin n`, vertex sets are `Finset (Fin n)`, the propagation
loops of `zero_forcing.py` become fuelled iteration of the per-round step
functions, the Havel-Hakimi loop of `degree_sequence_invariants.py` becomes
a fuelled recursion over integer lists, and the post-solve extraction code
of the ILP wrappers becomes functions on an abstract solver status.
-/

namespace GraphCalc

/-- A finite simple undirected graph on vertex set `Fin n`: a Boolean adjacency
matrix, symmetric and with empty diagonal (the data model of spec section 3:
no self-loops, no parallel edges, edges are unordered pairs). -/
structure Graph (n : ℕ) where
  adj : Fin n → Fin n → Bool
  symm : ∀ u v, adj u v = adj v u
  loopless : ∀ v, adj v v = false

variable {n : ℕ}

/-- Modelled from the spec: `neighborhood(G, v)` from the missing
`graphcalc/neighborhoods.py` module; N(v) is the set of vertices adjacent
to v (spec section 3). -/
def neighborhood (G : Graph n) (v : Fin n) : Finset (Fin n) :=
  Finset.univ.filter (fun u => G.adj v u = true)

/-- Modelled from the spec: `closed_neighborhood(G, v)`; N[v] = N(v) ∪ {v}. -/
def closed_neighborhood (G : Graph n) (v : Fin n) : Finset (Fin n) :=
  insert v (neighborhood G v)

/-- Modelled from the spec: `set_closed_neighbors(G, S)`; N[S] = union of the
closed neighborhoods of the members of S (spec section 3). -/
def set_closed_neighbors (G : Graph n) (S : Finset (Fin n)) : Finset (Fin n) :=
  S.biUnion (closed_neighborhood G)

/-- Modelled from the spec: `degree(G, v)` = |N(v)|, from the missing
`graphcalc/degree.py` module. -/
def degree (G : Graph n) (v : Fin n) : ℕ :=
  (neighborhood G v).card

/-- Modelled from the spec: `degree_sequence(G)`, the list of vertex degrees
(spec section 3: a finite sequence of nonnegative integers). -/
def degree_sequence (G : Graph n) : List ℕ :=
  (List.finRange n).map (degree G)

/-- Modelled from the spec: `minimum_degree(G)` = δ(G), from the missing
`graphcalc/degree.py` module. -/
def minimum_degree (G : Graph n) : ℕ :=
  if h : n = 0 then 0
  else
    (Finset.univ.image (degree G)).min'
      (Finset.Nonempty.image ⟨⟨0, Nat.pos_of_ne_zero h⟩, Finset.mem_univ _⟩ _)

lemma mem_neighborhood {G : Graph n} {u v : Fin n} :
    u ∈ neighborhood G v ↔ G.adj v u = true := by
  simp [neighborhood]

lemma not_self_mem_neighborhood (G : Graph n) (v : Fin n) :
    v ∉ neighborhood G v := by
  simp [mem_neighborhood, G.loopless]

lemma neighborhood_symm {G : Graph n} {u v : Fin n} :
    u ∈ neighborhood G v ↔ v ∈ neighborhood G u := by
  simp [mem_neighborhood, G.symm]

lemma degree_le_card_pred (G : Graph n) (v : Fin n) : degree G v ≤ n - 1 := by
  have hsub : neighborhood G v ⊆ Finset.univ.erase v := by
    intro u hu
    exact Finset.mem_erase.mpr
      ⟨fun h => not_self_mem_neighborhood G v (h ▸ hu), Finset.mem_univ u⟩
  have := Finset.card_le_card hsub
  simpa [Finset.card_erase_of_mem] using this

lemma minimum_degree_le (G : Graph n) (v : Fin n) :
    minimum_degree G ≤ degree G v := by
  have hn : n ≠ 0 := fun h => absurd (h ▸ v).2 (by simp [h])
  unfold minimum_degree
  rw [dif_neg hn]
  exact Finset.min'_le _ _ (Finset.mem_image_of_mem _ (Finset.mem_univ v))

lemma exists_degree_eq_minimum_degree (G : Graph n) (hn : 1 ≤ n) :
    ∃ v, degree G v = minimum_degree G := by
  have hne : n ≠ 0 := Nat.one_le_iff_ne_zero.mp hn
  unfold minimum_degree
  rw [dif_neg hne]
  have hmem := Finset.min'_mem (Finset.univ.image (degree G))
    (Finset.Nonempty.image ⟨⟨0, Nat.pos_of_ne_zero hne⟩, Finset.mem_univ _⟩ _)
  rcases Finset.mem_image.mp hmem with ⟨v, _, hv⟩
  exact ⟨v, hv⟩

/-- Fuelled while loop over vertex sets: repeat the round function `f` while
the guard `g` holds.  This is the common shape of the propagation loops in
`zero_forcing.py`; with fuel `n` it reaches the loop's exit condition because
every guarded round strictly enlarges the set. -/
def loopWhile (g : Finset (Fin n) → Bool) (f : Finset (Fin n) → Finset (Fin n)) :
    ℕ → Finset (Fin n) → Finset (Fin n)
  | 0, Z => Z
  | fuel + 1, Z => if g Z then loopWhile g f fuel (f Z) else Z

lemma loopWhile_of_guard_false {g : Finset (Fin n) → Bool}
    {f : Finset (Fin n) → Finset (Fin n)} {Z : Finset (Fin n)}
    (h : g Z = false) : ∀ fuel, loopWhile g f fuel Z = Z
  | 0 => rfl
  | fuel + 1 => by simp [loopWhile, h]

lemma subset_loopWhile {g : Finset (Fin n) → Bool}
    {f : Finset (Fin n) → Finset (Fin n)}
    (hgrow : ∀ Z, Z ⊆ f Z) :
    ∀ (fuel : ℕ) (Z : Finset (Fin n)), Z ⊆ loopWhile g f fuel Z
  | 0, Z => Finset.Subset.refl Z
  | fuel + 1, Z => by
    by_cases h : g Z = true
    · simpa [loopWhile, h] using
        (hgrow Z).trans (subset_loopWhile hgrow fuel (f Z))
    · simp [loopWhile, eq_false_of_ne_true h]

lemma loopWhile_guard_eq_false {g : Finset (Fin n) → Bool}
    {f : Finset (Fin n) → Finset (Fin n)}
    (hstrict : ∀ Z, g Z = true → Z.card < (f Z).card)
    (huniv : g Finset.univ = false) :
    ∀ (fuel : ℕ) (Z : Finset (Fin n)), n ≤ fuel + Z.card →
      g (loopWhile g f fuel Z) = false
  | 0, Z, hfuel => by
    have hZ : Z = Finset.univ := Finset.eq_univ_of_card _
      (le_antisymm (Finset.card_le_univ Z) (by simpa using hfuel))
    simpa [loopWhile, hZ] using huniv
  | fuel + 1, Z, hfuel => by
    by_cases h : g Z = true
    · have hlt := hstrict Z h
      have : n ≤ fuel + (f Z).card := by omega
      simpa [loopWhile, h] using loopWhile_guard_eq_false hstrict huniv fuel (f Z) this
    · simp [loopWhile, eq_false_of_ne_true h]

lemma loopWhile_subset_of_closed {g : Finset (Fin n) → Bool}
    {f : Finset (Fin n) → Finset (Fin n)} {D : Finset (Fin n)}
    (habsorb : ∀ Z, Z ⊆ D → g D = false → f Z ⊆ D)
    (hD : g D = false) :
    ∀ (fuel : ℕ) (Z : Finset (Fin n)), Z ⊆ D → loopWhile g f fuel Z ⊆ D
  | 0, Z, hZ => hZ
  | fuel + 1, Z, hZ => by
    by_cases h : g Z = true
    · simpa [loopWhile, h] using
        loopWhile_subset_of_closed habsorb hD fuel (f Z) (habsorb Z hZ hD)
    · simpa [loopWhile, eq_false_of_ne_true h] using hZ

/-- `is_k_forcing_vertex` (zero_forcing.py, lines 76-78, after validation of k):
v can k-force relative to S when v is in S and has between 1 and k
neighbors outside S. -/
def is_k_forcing_vertex (G : Graph n) (v : Fin n) (S : Finset (Fin n)) (k : ℕ) : Bool :=
  decide (v ∈ S) && decide (1 ≤ (neighborhood G v \ S).card)
    && decide ((neighborhood G v \ S).card ≤ k)

/-- `is_k_forcing_active_set` (zero_forcing.py, lines 109-113): some member of
S can k-force. -/
def is_k_forcing_active_set (G : Graph n) (S : Finset (Fin n)) (k : ℕ) : Bool :=
  decide (∃ v ∈ S, is_k_forcing_vertex G v S k = true)

/-- One round of the while loop of `is_k_forcing_set` (zero_forcing.py,
lines 149-153): every vertex of Z that can k-force contributes its whole
neighborhood to the update, computed against the unmodified Z. -/
def k_forcing_step (G : Graph n) (k : ℕ) (Z : Finset (Fin n)) : Finset (Fin n) :=
  Z ∪ (Z.filter (fun v => is_k_forcing_vertex G v Z k = true)).biUnion (neighborhood G)

/-- The fixed point that the while loop of `is_k_forcing_set` (zero_forcing.py,
lines 147-153) computes from the seed Z; fuel n suffices because every
guarded round strictly grows Z. -/
def k_forcing_closure (G : Graph n) (k : ℕ) (Z : Finset (Fin n)) : Finset (Fin n) :=
  loopWhile (fun Z => is_k_forcing_active_set G Z k) (k_forcing_step G k) n Z

/-- `is_k_forcing_set` (zero_forcing.py, lines 147-154): the loop's fixed point
equals the whole vertex set. -/
def is_k_forcing_set (G : Graph n) (nodes : Finset (Fin n)) (k : ℕ) : Bool :=
  decide (k_forcing_closure G k nodes = Finset.univ)

/-- `is_zero_forcing_set` (zero_forcing.py, line 313): the k = 1 case. -/
def is_zero_forcing_set (G : Graph n) (S : Finset (Fin n)) : Bool :=
  is_k_forcing_set G S 1

lemma subset_k_forcing_step (G : Graph n) (k : ℕ) (Z : Finset (Fin n)) :
    Z ⊆ k_forcing_step G k Z :=
  Finset.subset_union_left

lemma k_forcing_step_card_lt (G : Graph n) (k : ℕ) (Z : Finset (Fin n))
    (h : is_k_forcing_active_set G Z k = true) :
    Z.card < (k_forcing_step G k Z).card := by
  rcases of_decide_eq_true h with ⟨v, hvZ, hv⟩
  have h1 : 1 ≤ (neighborhood G v \ Z).card := by
    have := (Bool.and_eq_true _ _).mp ((Bool.and_eq_true _ _).mp hv).1
    exact of_decide_eq_true this.2
  rcases Finset.card_pos.mp h1 with ⟨w, hw⟩
  rcases Finset.mem_sdiff.mp hw with ⟨hwnb, hwZ⟩
  have hwstep : w ∈ k_forcing_step G k Z := by
    refine Finset.mem_union_right _ (Finset.mem_biUnion.mpr ⟨v, ?_, hwnb⟩)
    exact Finset.mem_filter.mpr ⟨hvZ, hv⟩
  exact Finset.card_lt_card
    ⟨subset_k_forcing_step G k Z, fun hsub => hwZ (hsub hwstep)⟩

lemma k_forcing_active_univ (G : Graph n) (k : ℕ) :
    is_k_forcing_active_set G Finset.univ k = false := by
  refine decide_eq_false ?_
  rintro ⟨v, -, hv⟩
  have h1 : 1 ≤ (neighborhood G v \ (Finset.univ : Finset (Fin n))).card := by
    have := (Bool.and_eq_true _ _).mp ((Bool.and_eq_true _ _).mp hv).1
    exact of_decide_eq_true this.2
  rw [Finset.sdiff_eq_empty_iff_subset.mpr (Finset.subset_univ _)] at h1
  simp at h1

lemma k_forcing_step_subset_of_closed (G : Graph n) (k : ℕ)
    {Z D : Finset (Fin n)} (hZD : Z ⊆ D)
    (hD : is_k_forcing_active_set G D k = false) :
    k_forcing_step G k Z ⊆ D := by
  intro w hw
  rcases Finset.mem_union.mp hw with hwZ | hwB
  · exact hZD hwZ
  rcases Finset.mem_biUnion.mp hwB with ⟨v, hvf, hwnb⟩
  rcases Finset.mem_filter.mp hvf with ⟨hvZ, hv⟩
  by_contra hwD
  have hk : (neighborhood G v \ Z).card ≤ k := by
    have := (Bool.and_eq_true _ _).mp hv
    exact of_decide_eq_true this.2
  have hcardD : (neighborhood G v \ D).card ≤ k :=
    le_trans (Finset.card_le_card (Finset.sdiff_subset_sdiff (le_refl _) hZD)) hk
  have h1D : 1 ≤ (neighborhood G v \ D).card :=
    Finset.card_pos.mpr ⟨w, Finset.mem_sdiff.mpr ⟨hwnb, hwD⟩⟩
  have hactive : is_k_forcing_active_set G D k = true := by
    refine decide_eq_true ⟨v, hZD hvZ, ?_⟩
    unfold is_k_forcing_vertex
    simp only [Bool.and_eq_true, decide_eq_true_eq]
    exact ⟨⟨hZD hvZ, h1D⟩, hcardD⟩
  rw [hD] at hactive
  exact Bool.false_ne_true hactive

lemma subset_k_forcing_closure (G : Graph n) (k : ℕ) (Z : Finset (Fin n)) :
    Z ⊆ k_forcing_closure G k Z :=
  subset_loopWhile (subset_k_forcing_step G k) n Z

lemma k_forcing_closure_inactive (G : Graph n) (k : ℕ) (Z : Finset (Fin n)) :
    is_k_forcing_active_set G (k_forcing_closure G k Z) k = false :=
  loopWhile_guard_eq_false (k_forcing_step_card_lt G k) (k_forcing_active_univ G k)
    n Z (Nat.le_add_right n Z.card)

lemma k_forcing_closure_subset_of_closed (G : Graph n) (k : ℕ)
    {Z D : Finset (Fin n)} (hZD : Z ⊆ D)
    (hD : is_k_forcing_active_set G D k = false) :
    k_forcing_closure G k Z ⊆ D :=
  loopWhile_subset_of_closed (fun _ h _ => k_forcing_step_subset_of_closed G k h hD)
    hD n Z hZD

/-- Monotonicity of the k-forcing closure in the seed set. -/
lemma k_forcing_closure_mono (G : Graph n) (k : ℕ) {S T : Finset (Fin n)}
    (hST : S ⊆ T) : k_forcing_closure G k S ⊆ k_forcing_closure G k T :=
  k_forcing_closure_subset_of_closed G k
    (hST.trans (subset_k_forcing_closure G k T))
    (k_forcing_closure_inactive G k T)

/-- One expansion round used to compute a connected component of the subgraph
induced on the white set W: add every W-vertex adjacent to the current set. -/
def componentStep (G : Graph n) (W C : Finset (Fin n)) : Finset (Fin n) :=
  C ∪ (C.biUnion (neighborhood G) ∩ W)

/-- The connected component of w inside the subgraph induced on W, as used by
`psd_color_change` through `nx.connected_components(G.subgraph(white_set))`
(zero_forcing.py, line 782): the reachable set of w by edges inside W, here
computed as the fixed point of `componentStep` (fuel n suffices). -/
def componentFrom (G : Graph n) (W : Finset (Fin n)) (w : Fin n) : Finset (Fin n) :=
  loopWhile (fun C => decide (¬ C.biUnion (neighborhood G) ∩ W ⊆ C))
    (componentStep G W) n {w}

lemma mem_componentFrom_self (G : Graph n) (W : Finset (Fin n)) (w : Fin n) :
    w ∈ componentFrom G W w :=
  subset_loopWhile (fun _ => Finset.subset_union_left) n {w} (Finset.mem_singleton_self w)

lemma componentFrom_closed (G : Graph n) (W : Finset (Fin n)) (w : Fin n) :
    (componentFrom G W w).biUnion (neighborhood G) ∩ W ⊆ componentFrom G W w := by
  have h := loopWhile_guard_eq_false (n := n)
    (g := fun C => decide (¬ C.biUnion (neighborhood G) ∩ W ⊆ C))
    (f := componentStep G W)
    (fun C hC => by
      rcases Finset.not_subset.mp (of_decide_eq_true hC) with ⟨x, hxin, hxout⟩
      exact Finset.card_lt_card
        ⟨Finset.subset_union_left, fun hsub => hxout
          (hsub (Finset.mem_union_right _ hxin))⟩)
    (decide_eq_false (fun hns => hns (Finset.subset_univ _)))
    n {w} (Nat.le_add_right n _)
  by_contra hns
  rw [decide_eq_false_iff_not, not_not] at h
  exact hns h

lemma componentFrom_mono_white (G : Graph n) {W W' : Finset (Fin n)} (w : Fin n)
    (hWW : W' ⊆ W) : componentFrom G W' w ⊆ componentFrom G W w := by
  refine loopWhile_subset_of_closed ?_ ?_ n {w}
    (Finset.singleton_subset_iff.mpr (mem_componentFrom_self G W w))
  · intro Z hZ _
    intro x hx
    rcases Finset.mem_union.mp hx with hxZ | hxB
    · exact hZ hxZ
    · refine componentFrom_closed G W w ?_
      rcases Finset.mem_inter.mp hxB with ⟨hxb, hxW⟩
      rcases Finset.mem_biUnion.mp hxb with ⟨v, hvZ, hxv⟩
      exact Finset.mem_inter.mpr
        ⟨Finset.mem_biUnion.mpr ⟨v, hZ hvZ, hxv⟩, hWW hxW⟩
  · refine decide_eq_false ?_
    rw [not_not]
    intro x hx
    rcases Finset.mem_inter.mp hx with ⟨hxb, hxW⟩
    exact componentFrom_closed G W w (Finset.mem_inter.mpr ⟨hxb, hWW hxW⟩)

/-- The set of white vertices forced in one round of the PSD color change rule
(zero_forcing.py, lines 781-788, with `is_psd_forcing_vertex` inlined):
w is forced when some black v has exactly one white neighbor in the
component of w inside the white subgraph, namely w itself. -/
def psd_forced (G : Graph n) (B : Finset (Fin n)) : Finset (Fin n) :=
  (Finset.univ \ B).filter
    (fun w => ∃ v ∈ B,
      neighborhood G v ∩ componentFrom G (Finset.univ \ B) w = {w})

/-- One full round of `psd_color_change`: the forced vertices join the black set. -/
def psd_color_change_step (G : Graph n) (B : Finset (Fin n)) : Finset (Fin n) :=
  B ∪ psd_forced G B

/-- `psd_color_change` (zero_forcing.py, lines 745-796): iterate the PSD round
until no new vertex is forced; returns the derived black set. -/
def psd_color_change (G : Graph n) (B : Finset (Fin n)) : Finset (Fin n) :=
  loopWhile (fun B => decide (psd_forced G B).Nonempty) (psd_color_change_step G) n B

/-- `is_psd_zero_forcing_set` (zero_forcing.py, lines 828-829): the derived set
has as many vertices as the graph. -/
def is_psd_zero_forcing_set (G : Graph n) (B : Finset (Fin n)) : Bool :=
  decide ((psd_color_change G B).card = n)

lemma psd_step_card_lt (G : Graph n) (B : Finset (Fin n))
    (h : decide (psd_forced G B).Nonempty = true) :
    B.card < (psd_color_change_step G B).card := by
  rcases of_decide_eq_true h with ⟨w, hw⟩
  have hwB : w ∉ B := (Finset.mem_sdiff.mp (Finset.mem_filter.mp hw).1).2
  exact Finset.card_lt_card
    ⟨Finset.subset_union_left, fun hsub => hwB (hsub (Finset.mem_union_right _ hw))⟩

lemma psd_forced_univ (G : Graph n) :
    psd_forced G Finset.univ = ∅ := by
  unfold psd_forced
  rw [Finset.sdiff_self]
  rfl

lemma psd_step_subset_of_closed (G : Graph n) {Z D : Finset (Fin n)}
    (hZD : Z ⊆ D) (hD : decide (psd_forced G D).Nonempty = false) :
    psd_color_change_step G Z ⊆ D := by
  intro w hw
  rcases Finset.mem_union.mp hw with hwZ | hwF
  · exact hZD hwZ
  rcases Finset.mem_filter.mp hwF with ⟨hwW, v, hvZ, hveq⟩
  by_contra hwD
  have hwmemN : w ∈ neighborhood G v := by
    have : w ∈ neighborhood G v ∩ componentFrom G (Finset.univ \ Z) w := by
      rw [hveq]; exact Finset.mem_singleton_self w
    exact (Finset.mem_inter.mp this).1
  have hWsub : (Finset.univ \ D : Finset (Fin n)) ⊆ Finset.univ \ Z :=
    Finset.sdiff_subset_sdiff (le_refl _) hZD
  have hcompsub : componentFrom G (Finset.univ \ D) w ⊆
      componentFrom G (Finset.univ \ Z) w :=
    componentFrom_mono_white G w hWsub
  have hsingle : neighborhood G v ∩ componentFrom G (Finset.univ \ D) w = {w} := by
    apply Finset.Subset.antisymm
    · intro x hx
      rcases Finset.mem_inter.mp hx with ⟨hxn, hxc⟩
      rw [← hveq]
      exact Finset.mem_inter.mpr ⟨hxn, hcompsub hxc⟩
    · intro x hx
      rw [Finset.mem_singleton] at hx
      rw [hx]
      exact Finset.mem_inter.mpr ⟨hwmemN, mem_componentFrom_self G _ w⟩
  have : w ∈ psd_forced G D := by
    refine Finset.mem_filter.mpr ⟨Finset.mem_sdiff.mpr ⟨Finset.mem_univ w, hwD⟩,
      v, hZD hvZ, hsingle⟩
  rw [decide_eq_false_iff_not] at hD
  exact hD ⟨w, this⟩

lemma subset_psd_color_change (G : Graph n) (B : Finset (Fin n)) :
    B ⊆ psd_color_change G B :=
  subset_loopWhile (fun _ => Finset.subset_union_left) n B

lemma psd_color_change_inactive (G : Graph n) (B : Finset (Fin n)) :
    decide (psd_forced G (psd_color_change G B)).Nonempty = false :=
  loopWhile_guard_eq_false (psd_step_card_lt G)
    (by rw [psd_forced_univ]; exact decide_eq_false (by simp))
    n B (Nat.le_add_right n B.card)

/-- Monotonicity of the PSD closure in the seed set. -/
lemma psd_color_change_mono (G : Graph n) {S T : Finset (Fin n)} (hST : S ⊆ T) :
    psd_color_change G S ⊆ psd_color_change G T :=
  loopWhile_subset_of_closed
    (fun _ hZ hD => psd_step_subset_of_closed G hZ hD)
    (psd_color_change_inactive G T) n S
    (hST.trans (subset_psd_color_change G T))

lemma loopWhile_invariant {g : Finset (Fin n) → Bool}
    {f : Finset (Fin n) → Finset (Fin n)} {p : Finset (Fin n) → Prop}
    (hf : ∀ Z, p Z → p (f Z)) :
    ∀ (fuel : ℕ) (Z : Finset (Fin n)), p Z → p (loopWhile g f fuel Z)
  | 0, _, hZ => hZ
  | fuel + 1, Z, hZ => by
    by_cases h : g Z = true
    · simpa [loopWhile, h] using loopWhile_invariant hf fuel (f Z) (hf Z hZ)
    · simpa [loopWhile, eq_false_of_ne_true h] using hZ

/-- The list of all subsets of the vertex set, in the enumeration order induced
by `List.sublists`; the brute-force searches walk this list. -/
def allSubsets (n : ℕ) : List (Finset (Fin n)) :=
  ((List.finRange n).sublists).map List.toFinset

lemma mem_allSubsets (S : Finset (Fin n)) : S ∈ allSubsets n := by
  refine List.mem_map.mpr ⟨(List.finRange n).filter (fun v => v ∈ S), ?_, ?_⟩
  · exact List.mem_sublists.mpr (List.filter_sublist _)
  · ext x
    simp [List.mem_filter, List.mem_finRange]

/-- The first subset of cardinality i satisfying P; this models one pass of
`for S in combinations(G.nodes(), i)`.  The claims below depend only on
which sizes admit a witness, not on the enumeration order within a size. -/
def firstAtSize (P : Finset (Fin n) → Bool) (i : ℕ) : Option (Finset (Fin n)) :=
  (allSubsets n).find? (fun S => S.card == i && P S)

/-- Search subset sizes i, i+1, ..., i+c-1 in increasing order and return the
first witness found; this models `for i in range(lo, G.order() + 1)` with the
implicit `return None` fall-through when the loop completes. -/
def searchSizes (P : Finset (Fin n) → Bool) : ℕ → ℕ → Option (Finset (Fin n))
  | _, 0 => none
  | i, c + 1 =>
    match firstAtSize P i with
    | some S => some S
    | none => searchSizes P (i + 1) c

lemma searchSizes_succ (P : Finset (Fin n) → Bool) (i c : ℕ) :
    searchSizes P i (c + 1) =
      match firstAtSize P i with
      | some S => some S
      | none => searchSizes P (i + 1) c := rfl

lemma firstAtSize_some {P : Finset (Fin n) → Bool} {i : ℕ} {S : Finset (Fin n)}
    (h : firstAtSize P i = some S) : S.card = i ∧ P S = true := by
  have := List.find?_some h
  rcases (Bool.and_eq_true _ _).mp this with ⟨h1, h2⟩
  exact ⟨eq_of_beq h1, h2⟩

lemma firstAtSize_none {P : Finset (Fin n) → Bool} {i : ℕ}
    (h : firstAtSize P i = none) :
    ∀ S : Finset (Fin n), S.card = i → P S = false := by
  intro S hcard
  have hfind := List.find?_eq_none.mp h S (mem_allSubsets S)
  cases hb : P S with
  | false => rfl
  | true =>
    exfalso
    apply hfind
    rw [Bool.and_eq_true]
    exact ⟨by simpa using hcard, hb⟩

lemma searchSizes_some {P : Finset (Fin n) → Bool} :
    ∀ {i c : ℕ} {S : Finset (Fin n)}, searchSizes P i c = some S →
      P S = true ∧ i ≤ S.card ∧ S.card < i + c ∧
      ∀ T : Finset (Fin n), i ≤ T.card → T.card < S.card → P T = false := by
  intro i c
  induction c generalizing i with
  | zero => intro S h; exact absurd h (by intro hc; cases hc)
  | succ c ih =>
    intro S h
    rw [searchSizes_succ] at h
    rcases hfs : firstAtSize P i with _ | T
    · rw [hfs] at h
      simp only at h
      rcases ih h with ⟨hP, hle, hlt, hmin⟩
      refine ⟨hP, by omega, by omega, ?_⟩
      intro T hTle hTlt
      rcases Nat.eq_or_lt_of_le hTle with heq | hlt2
      · exact firstAtSize_none hfs T heq.symm
      · exact hmin T hlt2 hTlt
    · rw [hfs] at h
      simp only [Option.some.injEq] at h
      subst h
      rcases firstAtSize_some hfs with ⟨hcard, hP⟩
      exact ⟨hP, le_of_eq hcard.symm, by omega, fun T hTle hTlt => by omega⟩

lemma searchSizes_eq_none {P : Finset (Fin n) → Bool} :
    ∀ {i c : ℕ}, searchSizes P i c = none →
      ∀ S : Finset (Fin n), i ≤ S.card → S.card < i + c → P S = false := by
  intro i c
  induction c generalizing i with
  | zero => intro _ S _ h2; omega
  | succ c ih =>
    intro h S h1 h2
    rw [searchSizes_succ] at h
    rcases hfs : firstAtSize P i with _ | T
    · rw [hfs] at h
      simp only at h
      rcases Nat.eq_or_lt_of_le h1 with heq | hlt
      · exact firstAtSize_none hfs S heq.symm
      · exact ih h S hlt (by omega)
    · rw [hfs] at h; cases h

lemma searchSizes_isSome {P : Finset (Fin n) → Bool} {i c : ℕ}
    {S : Finset (Fin n)} (hP : P S = true) (h1 : i ≤ S.card)
    (h2 : S.card < i + c) : (searchSizes P i c).isSome := by
  rcases h : searchSizes P i c with _ | T
  · exact absurd hP (by simp [searchSizes_eq_none h S h1 h2])
  · rfl

/-- `minimum_k_forcing_set` (zero_forcing.py, lines 157-188): brute-force search
in increasing size order, starting from δ(G) when k = 1 and from 1 otherwise,
with the implicit `return None` fall-through. -/
def minimum_k_forcing_set (G : Graph n) (k : ℕ) : Option (Finset (Fin n)) :=
  searchSizes (fun S => is_k_forcing_set G S k)
    (if k = 1 then minimum_degree G else 1)
    (n + 1 - (if k = 1 then minimum_degree G else 1))

/-- `is_total_zero_forcing_set` (zero_forcing.py, lines 423-427): a zero forcing
set in which every member has a neighbor inside the set. -/
def is_total_zero_forcing_set (G : Graph n) (S : Finset (Fin n)) : Bool :=
  decide (∀ v ∈ S, (neighborhood G v ∩ S).Nonempty) && is_zero_forcing_set G S

/-- `minimum_total_zero_forcing_set` (zero_forcing.py, lines 456-461): search
sizes 2..n; when the loop completes without a witness it returns None. -/
def minimum_total_zero_forcing_set (G : Graph n) : Option (Finset (Fin n)) :=
  searchSizes (is_total_zero_forcing_set G) 2 (n + 1 - 2)

/-- `total_zero_forcing_number` (zero_forcing.py, lines 489-493): the size of the
found set, propagating None. -/
def total_zero_forcing_number (G : Graph n) : Option ℕ :=
  (minimum_total_zero_forcing_set G).map Finset.card

lemma neighborhood_eq_empty_of_degree_zero {G : Graph n} {u : Fin n}
    (hu : degree G u = 0) : neighborhood G u = ∅ :=
  Finset.card_eq_zero.mp hu

lemma not_mem_k_forcing_closure_of_isolated (G : Graph n) (k : ℕ)
    {u : Fin n} (hu : degree G u = 0) {Z : Finset (Fin n)} (huZ : u ∉ Z) :
    u ∉ k_forcing_closure G k Z := by
  refine loopWhile_invariant (p := fun Z => u ∉ Z) ?_ n Z huZ
  intro W hW hmem
  rcases Finset.mem_union.mp hmem with h | h
  · exact hW h
  · rcases Finset.mem_biUnion.mp h with ⟨v, _, hunb⟩
    have : v ∈ neighborhood G u := neighborhood_symm.mp hunb
    rw [neighborhood_eq_empty_of_degree_zero hu] at this
    exact absurd this (Finset.not_mem_empty v)

lemma isolated_mem_of_zero_forcing (G : Graph n) {u : Fin n}
    (hu : degree G u = 0) {S : Finset (Fin n)}
    (h : is_zero_forcing_set G S = true) : u ∈ S := by
  by_contra huS
  have hcl : k_forcing_closure G 1 S = Finset.univ := of_decide_eq_true h
  exact not_mem_k_forcing_closure_of_isolated G 1 hu huS
    (hcl ▸ Finset.mem_univ u)

lemma is_total_zero_forcing_set_eq_false_of_isolated (G : Graph n) {u : Fin n}
    (hu : degree G u = 0) (S : Finset (Fin n)) :
    is_total_zero_forcing_set G S = false := by
  cases hb : is_total_zero_forcing_set G S with
  | false => rfl
  | true =>
    exfalso
    rcases (Bool.and_eq_true _ _).mp hb with ⟨htot, hzfs⟩
    have huS : u ∈ S := isolated_mem_of_zero_forcing G hu hzfs
    rcases of_decide_eq_true htot u huS with ⟨w, hw⟩
    rw [neighborhood_eq_empty_of_degree_zero hu] at hw
    exact absurd (Finset.mem_inter.mp hw).1 (Finset.not_mem_empty w)

lemma min_degree_le_card_of_zero_forcing (G : Graph n) (hn : 1 ≤ n)
    {S : Finset (Fin n)} (h : is_k_forcing_set G S 1 = true) :
    minimum_degree G ≤ S.card := by
  have hcl : k_forcing_closure G 1 S = Finset.univ := of_decide_eq_true h
  by_cases hSuniv : S = Finset.univ
  · have hv : minimum_degree G ≤ n - 1 :=
      le_trans (minimum_degree_le G ⟨0, hn⟩) (degree_le_card_pred G _)
    have : S.card = n := by rw [hSuniv]; simp
    omega
  · have hguard : is_k_forcing_active_set G S 1 = true := by
      cases hg : is_k_forcing_active_set G S 1 with
      | true => rfl
      | false =>
        exfalso
        apply hSuniv
        have heq : k_forcing_closure G 1 S = S := by
          unfold k_forcing_closure
          exact loopWhile_of_guard_false hg n
        rw [← heq, hcl]
    rcases of_decide_eq_true hguard with ⟨v, hvS, hv⟩
    have h1 : 1 ≤ (neighborhood G v \ S).card := by
      have := (Bool.and_eq_true _ _).mp ((Bool.and_eq_true _ _).mp hv).1
      exact of_decide_eq_true this.2
    have h2 : (neighborhood G v \ S).card ≤ 1 := by
      have := (Bool.and_eq_true _ _).mp hv
      exact of_decide_eq_true this.2
    have hwc : (neighborhood G v \ S).card = 1 := le_antisymm h2 h1
    have hsubset : insert v (neighborhood G v ∩ S) ⊆ S := by
      intro x hx
      rcases Finset.mem_insert.mp hx with hx | hx
      · exact hx ▸ hvS
      · exact (Finset.mem_inter.mp hx).2
    have hvnotin : v ∉ neighborhood G v ∩ S :=
      fun hmem => not_self_mem_neighborhood G v (Finset.mem_inter.mp hmem).1
    have hcardins : (insert v (neighborhood G v ∩ S)).card =
        (neighborhood G v ∩ S).card + 1 := Finset.card_insert_of_not_mem hvnotin
    have hsplit : (neighborhood G v ∩ S).card + (neighborhood G v \ S).card =
        degree G v := Finset.card_inter_add_card_sdiff _ _
    have hdeg : degree G v ≤ S.card := by
      have := Finset.card_le_card hsubset
      omega
    exact le_trans (minimum_degree_le G v) hdeg

lemma is_k_forcing_set_univ (G : Graph n) (k : ℕ) :
    is_k_forcing_set G Finset.univ k = true := by
  unfold is_k_forcing_set k_forcing_closure
  rw [loopWhile_of_guard_false (k_forcing_active_univ G k) n]
  exact decide_eq_true rfl

lemma minimum_k_forcing_set_isSome (G : Graph n) (k : ℕ) (hn : 1 ≤ n) :
    (minimum_k_forcing_set G k).isSome := by
  have hlo : (if k = 1 then minimum_degree G else 1) ≤ n := by
    by_cases hk : k = 1
    · have : minimum_degree G ≤ n - 1 :=
        le_trans (minimum_degree_le G ⟨0, hn⟩) (degree_le_card_pred G _)
      simp only [hk, if_pos]
      omega
    · simp only [hk, if_neg, if_false]
      omega
  refine searchSizes_isSome (S := Finset.univ) (is_k_forcing_set_univ G k) ?_ ?_
  · simpa using hlo
  · have : (Finset.univ : Finset (Fin n)).card = n := by simp
    omega

/-- **C3.** For seed sets S ⊆ T and every supported rule (k-forcing with integer
k ≥ 1, and PSD forcing), the closure computed from S is contained in the
closure computed from T; in particular a forcing seed stays forcing when
enlarged. -/
theorem close_monotone_in_seed {n : ℕ} (G : Graph n) (S T : Finset (Fin n))
    (k : ℕ) (_hk : 1 ≤ k) (hST : S ⊆ T) :
    k_forcing_closure G k S ⊆ k_forcing_closure G k T ∧
    psd_color_change G S ⊆ psd_color_change G T ∧
    (is_k_forcing_set G S k = true → is_k_forcing_set G T k = true) ∧
    (is_psd_zero_forcing_set G S = true → is_psd_zero_forcing_set G T = true) := by
  refine ⟨k_forcing_closure_mono G k hST, psd_color_change_mono G hST, ?_, ?_⟩
  · intro hS
    have hcl : k_forcing_closure G k S = Finset.univ := of_decide_eq_true hS
    refine decide_eq_true (Finset.univ_subset_iff.mp ?_)
    rw [← hcl]
    exact k_forcing_closure_mono G k hST
  · intro hS
    have hcl : (psd_color_change G S).card = n := of_decide_eq_true hS
    have huniv : psd_color_change G S = Finset.univ :=
      Finset.eq_univ_of_card _ (by simpa using hcl)
    refine decide_eq_true ?_
    have : psd_color_change G T = Finset.univ :=
      Finset.univ_subset_iff.mp (huniv ▸ psd_color_change_mono G hST)
    simp [this]

/-- **C4.** Every zero forcing set has at least δ(G) vertices, so the search in
`minimum_k_forcing_set(G, 1)`, although it starts at cardinality δ(G), still
returns a zero forcing set of minimum cardinality. -/
theorem minimum_k_forcing_set_one_min {n : ℕ} (G : Graph n) (hn : 1 ≤ n) :
    (∀ T : Finset (Fin n), is_k_forcing_set G T 1 = true →
      minimum_degree G ≤ T.card) ∧
    ∃ S, minimum_k_forcing_set G 1 = some S ∧ is_k_forcing_set G S 1 = true ∧
      ∀ T : Finset (Fin n), is_k_forcing_set G T 1 = true → S.card ≤ T.card := by
  refine ⟨fun T hT => min_degree_le_card_of_zero_forcing G hn hT, ?_⟩
  rcases Option.isSome_iff_exists.mp (minimum_k_forcing_set_isSome G 1 hn) with ⟨S, hS⟩
  rcases searchSizes_some hS with ⟨hP, hlo, _, hmin⟩
  refine ⟨S, hS, hP, ?_⟩
  intro T hT
  by_contra hlt
  push_neg at hlt
  have hTlo : (if (1 : ℕ) = 1 then minimum_degree G else 1) ≤ T.card := by
    simpa using min_degree_le_card_of_zero_forcing G hn hT
  have := hmin T hTlo hlt
  rw [hT] at this
  simp at this

/-- **C6.** On a graph with an isolated vertex (and at least two vertices) no
total zero forcing set exists, the brute-force search exhausts every size and
returns None, and `total_zero_forcing_number` propagates the same None. -/
theorem total_zero_forcing_infeasible_of_isolated {n : ℕ} (G : Graph n)
    (_hn : 2 ≤ n) (u : Fin n) (hu : degree G u = 0) :
    (∀ S : Finset (Fin n), is_total_zero_forcing_set G S = false) ∧
    minimum_total_zero_forcing_set G = none ∧
    total_zero_forcing_number G = none := by
  have hall := is_total_zero_forcing_set_eq_false_of_isolated G hu
  have hnone : minimum_total_zero_forcing_set G = none := by
    rcases h : minimum_total_zero_forcing_set G with _ | S
    · rfl
    · rcases searchSizes_some h with ⟨hP, -, -, -⟩
      rw [hall S] at hP
      exact absurd hP Bool.false_ne_true
  exact ⟨hall, hnone, by rw [total_zero_forcing_number, hnone]; rfl⟩

/-- **C10.** For every graph on n ≥ 1 vertices and integer k ≥ 1, the full
vertex set is a k-forcing set, so `minimum_k_forcing_set(G, k)` always finds a
witness and never reaches its implicit None fall-through. -/
theorem minimum_k_forcing_set_never_none {n : ℕ} (G : Graph n) (k : ℕ)
    (hn : 1 ≤ n) (_hk : 1 ≤ k) :
    is_k_forcing_set G Finset.univ k = true ∧
    ∃ S, minimum_k_forcing_set G k = some S := by
  exact ⟨is_k_forcing_set_univ G k,
    Option.isSome_iff_exists.mp (minimum_k_forcing_set_isSome G k hn)⟩

/-- The two failure modes of the parameter check for k (both `BadParameter` in
the spec taxonomy): Python raises TypeError when `float(k)` is not integral and
ValueError when the resulting integer is below 1. -/
inductive KErr where
  | typeErr : KErr
  | valueErr : KErr
deriving DecidableEq

/-- The k-validation prologue shared by `is_k_forcing_vertex` (zero_forcing.py,
lines 70-75), `is_connected_k_forcing_set`, `minimum_connected_k_forcing_set`
and `sub_k_domination_number`: k is modelled as a rational to cover the int and
float arguments Python accepts; `float(k).is_integer()` holds exactly when the
denominator is 1, and then `int(k)` is the numerator. -/
def validate_k (k : ℚ) : Except KErr ℤ :=
  if k.den ≠ 1 then .error .typeErr
  else if k.num < 1 then .error .valueErr
  else .ok k.num

/-- k is accepted: an integral value that is at least 1. -/
def goodK (k : ℚ) : Prop := k.den = 1 ∧ 1 ≤ k.num

instance goodK_decidable (k : ℚ) : Decidable (goodK k) :=
  decidable_of_iff (k.den = 1 ∧ 1 ≤ k.num) Iff.rfl

lemma validate_k_eq_ok {k : ℚ} (h : goodK k) : validate_k k = .ok k.num := by
  rcases h with ⟨h1, h2⟩
  unfold validate_k
  rw [if_neg (by simp [h1]), if_neg (by omega)]

lemma validate_k_eq_error {k : ℚ} (h : ¬ goodK k) :
    ∃ e, validate_k k = .error e := by
  unfold validate_k goodK at *
  by_cases h1 : k.den = 1
  · refine ⟨.valueErr, ?_⟩
    rw [if_neg (by simp [h1]), if_pos (by push_neg at h; omega)]
  · exact ⟨.typeErr, by rw [if_pos h1]⟩

/-- `is_k_forcing_vertex` (zero_forcing.py, lines 30-78) with its validation
prologue: k is validated before the forcing condition is evaluated. -/
def is_k_forcing_vertex_checked (G : Graph n) (v : Fin n) (S : Finset (Fin n))
    (k : ℚ) : Except KErr Bool :=
  (validate_k k).map (fun kz => is_k_forcing_vertex G v S kz.toNat)

/-- The while loop of `is_k_forcing_set` with the validation performed inside
`is_k_forcing_vertex`: when the current set is empty the active-set scan makes
no vertex call, so k is never validated and the loop exits. -/
def k_forcing_loop_checked (G : Graph n) (k : ℚ) :
    ℕ → Finset (Fin n) → Except KErr (Finset (Fin n))
  | 0, Z => .ok Z
  | fuel + 1, Z =>
    if Z = ∅ then .ok Z
    else
      match validate_k k with
      | .error e => .error e
      | .ok kz =>
        if is_k_forcing_active_set G Z kz.toNat then
          k_forcing_loop_checked G k fuel (k_forcing_step G kz.toNat Z)
        else .ok Z

/-- `is_k_forcing_set` (zero_forcing.py, lines 147-154) with Python's exception
behavior made explicit: the loop body validates k through
`is_k_forcing_vertex`, but only when the colored set is nonempty. -/
def is_k_forcing_set_checked (G : Graph n) (nodes : Finset (Fin n)) (k : ℚ) :
    Except KErr Bool :=
  (k_forcing_loop_checked G k n nodes).map (fun Z => decide (Z = Finset.univ))

/-- `is_k_power_dominating_set` (zero_forcing.py, line 939): k-forcing from the
closed neighborhood of the seed. -/
def is_k_power_dominating_set_checked (G : Graph n) (nodes : Finset (Fin n))
    (k : ℚ) : Except KErr Bool :=
  is_k_forcing_set_checked G (set_closed_neighbors G nodes) k

/-- Connectivity of the subgraph induced on S (networkx `is_connected` of
`G.subgraph(S)`): every member of S is reachable from every member inside S. -/
def subgraph_connected (G : Graph n) (S : Finset (Fin n)) : Bool :=
  decide (∀ v ∈ S, ∀ w ∈ S, v ∈ componentFrom G S w)

/-- Connectivity of G itself (networkx `is_connected`). -/
def connectedb (G : Graph n) : Bool :=
  decide (∀ v w : Fin n, v ∈ componentFrom G Finset.univ w)

/-- The body of `is_connected_k_forcing_set` (zero_forcing.py, lines 532-534)
after validation: the induced subgraph is connected and the set k-forces. -/
def is_connected_k_forcing_set_pure (G : Graph n) (S : Finset (Fin n)) (kz : ℕ) :
    Bool :=
  subgraph_connected G S && is_k_forcing_set G S kz

/-- The search of `minimum_connected_k_forcing_set` (zero_forcing.py,
lines 599-605) after validation: None when G is disconnected, otherwise the
first connected k-forcing set in increasing size order. -/
def minimum_connected_k_forcing_set_pure (G : Graph n) (kz : ℕ) :
    Option (Finset (Fin n)) :=
  if connectedb G then
    searchSizes (fun S => is_connected_k_forcing_set_pure G S kz) 1 (n + 1 - 1)
  else none

/-- `minimum_connected_k_forcing_set` (zero_forcing.py, lines 568-605): k is
validated first, before even the connectivity test. -/
def minimum_connected_k_forcing_set (G : Graph n) (k : ℚ) :
    Except KErr (Option (Finset (Fin n))) :=
  (validate_k k).map (fun kz => minimum_connected_k_forcing_set_pure G kz.toNat)

/-- Sorted copy of a list of naturals in non-increasing order
(`D.sort(reverse=True)`). -/
def sortDescN (l : List ℕ) : List ℕ :=
  l.insertionSort (fun a b => b ≤ a)

/-- The search of `sub_k_domination_number` (degree_sequence_invariants.py,
lines 70-77) after validation: the first i with i + (sum of the i largest
degrees) / k at least n, evaluated in exact arithmetic. -/
def sub_k_domination_search (G : Graph n) (kz : ℤ) : Option ℕ :=
  (List.range (n + 1)).find?
    (fun i => (n : ℚ) ≤ (i : ℚ) +
      (((sortDescN (degree_sequence G)).take i).sum : ℚ) / (kz : ℚ))

/-- `sub_k_domination_number` (degree_sequence_invariants.py, lines 16-77):
k is validated first, then the degree-sequence threshold search runs. -/
def sub_k_domination_number (G : Graph n) (k : ℚ) : Except KErr (Option ℕ) :=
  (validate_k k).map (sub_k_domination_search G)

/-- The first subset of cardinality i whose fallible predicate accepts, walking
the subsets in `allSubsets` order and propagating the first exception. -/
def findAtSizeE (P : Finset (Fin n) → Except KErr Bool) (i : ℕ) :
    List (Finset (Fin n)) → Except KErr (Option (Finset (Fin n)))
  | [] => .ok none
  | S :: rest =>
    if S.card = i then
      match P S with
      | .error e => .error e
      | .ok true => .ok (some S)
      | .ok false => findAtSizeE P i rest
    else findAtSizeE P i rest

/-- Size-increasing search with a fallible predicate, the exception-aware
version of `searchSizes`. -/
def searchSizesE (P : Finset (Fin n) → Except KErr Bool) :
    ℕ → ℕ → Except KErr (Option (Finset (Fin n)))
  | _, 0 => .ok none
  | i, c + 1 =>
    match findAtSizeE P i (allSubsets n) with
    | .error e => .error e
    | .ok (some S) => .ok (some S)
    | .ok none => searchSizesE P (i + 1) c

/-- `minimum_k_forcing_set` (zero_forcing.py, lines 157-188) with Python's
exception behavior: the searched predicate `is_k_forcing_set` validates k on
every nonempty candidate. -/
def minimum_k_forcing_set_checked (G : Graph n) (k : ℚ) :
    Except KErr (Option (Finset (Fin n))) :=
  searchSizesE (fun S => is_k_forcing_set_checked G S k)
    (if k = (1 : ℚ) then minimum_degree G else 1)
    (n + 1 - (if k = (1 : ℚ) then minimum_degree G else 1))

/-- `minimum_k_power_dominating_set` (zero_forcing.py, lines 974-977) with
Python's exception behavior. -/
def minimum_k_power_dominating_set_checked (G : Graph n) (k : ℚ) :
    Except KErr (Option (Finset (Fin n))) :=
  searchSizesE (fun S => is_k_power_dominating_set_checked G S k) 1 (n + 1 - 1)

/-- The pure counterpart of `minimum_k_power_dominating_set` for accepted k. -/
def minimum_k_power_dominating_set_pure (G : Graph n) (kz : ℕ) :
    Option (Finset (Fin n)) :=
  searchSizes (fun S => is_k_forcing_set G (set_closed_neighbors G S) kz)
    1 (n + 1 - 1)

lemma active_empty (G : Graph n) (kz : ℕ) :
    is_k_forcing_active_set G ∅ kz = false := by
  refine decide_eq_false ?_
  rintro ⟨v, hv, -⟩
  exact absurd hv (Finset.not_mem_empty v)

lemma k_forcing_loop_checked_good {k : ℚ} (hk : goodK k) (G : Graph n) :
    ∀ (fuel : ℕ) (Z : Finset (Fin n)),
      k_forcing_loop_checked G k fuel Z =
        .ok (loopWhile (fun W => is_k_forcing_active_set G W k.num.toNat)
          (k_forcing_step G k.num.toNat) fuel Z)
  | 0, Z => rfl
  | fuel + 1, Z => by
    by_cases hZ : Z = ∅
    · have hguard : is_k_forcing_active_set G Z k.num.toNat = false := by
        rw [hZ]; exact active_empty G _
      rw [k_forcing_loop_checked, if_pos hZ, loopWhile,
        if_neg (by simp [hguard])]
    · rw [k_forcing_loop_checked, if_neg hZ, validate_k_eq_ok hk]
      by_cases hguard : is_k_forcing_active_set G Z k.num.toNat = true
      · simp only [hguard, if_true, loopWhile, if_pos hguard]
        exact k_forcing_loop_checked_good hk G fuel _
      · simp only [eq_false_of_ne_true hguard, if_false, loopWhile]
        simp

lemma is_k_forcing_set_checked_good {k : ℚ} (hk : goodK k) (G : Graph n)
    (nodes : Finset (Fin n)) :
    is_k_forcing_set_checked G nodes k = .ok (is_k_forcing_set G nodes k.num.toNat) := by
  rw [is_k_forcing_set_checked, k_forcing_loop_checked_good hk G n nodes]
  rfl

lemma is_k_forcing_set_checked_bad_eq {k : ℚ} {e : KErr}
    (he : validate_k k = .error e) (G : Graph n)
    {nodes : Finset (Fin n)} (hne : nodes ≠ ∅) (hn : 1 ≤ n) :
    is_k_forcing_set_checked G nodes k = .error e := by
  obtain ⟨m, rfl⟩ : ∃ m, n = m + 1 := ⟨n - 1, by omega⟩
  rw [is_k_forcing_set_checked, k_forcing_loop_checked, if_neg hne, he]
  rfl

lemma findAtSizeE_good {P : Finset (Fin n) → Except KErr Bool}
    {p : Finset (Fin n) → Bool} (hP : ∀ S, P S = .ok (p S)) (i : ℕ) :
    ∀ l : List (Finset (Fin n)),
      findAtSizeE P i l = .ok (l.find? (fun S => S.card == i && p S))
  | [] => rfl
  | S :: rest => by
    rw [findAtSizeE]
    by_cases hcard : S.card = i
    · rw [if_pos hcard, hP S]
      cases hb : p S with
      | true =>
        rw [List.find?]
        simp only [hcard, hb, Bool.and_true]
        simp
      | false =>
        rw [List.find?]
        simp only [hb, Bool.and_false]
        exact findAtSizeE_good hP i rest
    · rw [if_neg hcard, List.find?]
      have : (S.card == i) = false := by simp [hcard]
      simp only [this, Bool.false_and]
      exact findAtSizeE_good hP i rest

lemma searchSizesE_good {P : Finset (Fin n) → Except KErr Bool}
    {p : Finset (Fin n) → Bool} (hP : ∀ S, P S = .ok (p S)) :
    ∀ i c : ℕ, searchSizesE P i c = .ok (searchSizes p i c)
  | _, 0 => rfl
  | i, c + 1 => by
    have hfirst : firstAtSize p i =
        (allSubsets n).find? (fun S => S.card == i && p S) := rfl
    rw [searchSizesE, findAtSizeE_good hP i (allSubsets n), searchSizes_succ, hfirst]
    rcases hfs : (allSubsets n).find? (fun S => S.card == i && p S) with _ | S
    · rw [hfs]
      show searchSizesE P (i + 1) c = .ok (searchSizes p (i + 1) c)
      exact searchSizesE_good hP (i + 1) c
    · rw [hfs]

lemma findAtSizeE_bad {P : Finset (Fin n) → Except KErr Bool} {e : KErr} {i : ℕ}
    (herr : ∀ S : Finset (Fin n), S.card = i → P S = .error e) :
    ∀ l : List (Finset (Fin n)), (∃ S ∈ l, S.card = i) →
      findAtSizeE P i l = .error e
  | [], hex => absurd hex (by simp)
  | S :: rest, hex => by
    rw [findAtSizeE]
    by_cases hcard : S.card = i
    · rw [if_pos hcard, herr S hcard]
    · rw [if_neg hcard]
      rcases hex with ⟨T, hTmem, hTcard⟩
      rcases List.mem_cons.mp hTmem with hTS | hTrest
      · exact absurd (hTS ▸ hTcard) hcard
      · exact findAtSizeE_bad herr rest ⟨T, hTrest, hTcard⟩

lemma exists_card_one (hn : 1 ≤ n) :
    ∃ S ∈ allSubsets n, S.card = 1 :=
  ⟨{⟨0, hn⟩}, mem_allSubsets _, Finset.card_singleton _⟩

lemma searchSizesE_bad_from_one {P : Finset (Fin n) → Except KErr Bool} {e : KErr}
    (hn : 1 ≤ n) (herr : ∀ S : Finset (Fin n), S.card = 1 → P S = .error e)
    {c : ℕ} (hc : 1 ≤ c) : searchSizesE P 1 c = .error e := by
  rcases c, hc with ⟨_ | c, hc⟩
  · omega
  · rw [searchSizesE, findAtSizeE_bad herr (allSubsets n) (exists_card_one hn)]

lemma set_closed_neighbors_nonempty (G : Graph n) {S : Finset (Fin n)}
    (hS : S.Nonempty) : set_closed_neighbors G S ≠ ∅ := by
  rcases hS with ⟨v, hv⟩
  intro hcontra
  have : v ∈ set_closed_neighbors G S :=
    Finset.mem_biUnion.mpr ⟨v, hv, Finset.mem_insert_self v _⟩
  rw [hcontra] at this
  exact absurd this (Finset.not_mem_empty v)

lemma goodK_one : goodK (1 : ℚ) := ⟨rfl, le_refl 1⟩

lemma goodK_one_iff {k : ℚ} (hk : goodK k) : (k = (1 : ℚ)) ↔ k.num.toNat = 1 := by
  constructor
  · intro h; rw [h]; rfl
  · intro h
    have hnum : k.num = 1 := by
      rcases hk with ⟨-, h2⟩; omega
    exact Rat.ext hnum (hk.1.trans rfl)

/-- **C5.** The operations taking the parameter k (k-forcing, connected
k-forcing, k-power domination, sub-k-domination) fail with a BadParameter
exception exactly when k is not an integral value at least 1; for accepted k
they run the pure computation.  The validation lives in the prologue of
`is_k_forcing_vertex` for the forcing searches and at the top of the connected
and sub-k operations. -/
theorem k_parameter_validation {n : ℕ} (G : Graph n) (k : ℚ) (hn : 1 ≤ n) :
    (¬ goodK k →
      (∀ (v : Fin n) (S : Finset (Fin n)),
        ∃ e, is_k_forcing_vertex_checked G v S k = .error e) ∧
      (∃ e, minimum_k_forcing_set_checked G k = .error e) ∧
      (∃ e, minimum_connected_k_forcing_set G k = .error e) ∧
      (∃ e, minimum_k_power_dominating_set_checked G k = .error e) ∧
      (∃ e, sub_k_domination_number G k = .error e)) ∧
    (goodK k →
      (∀ (v : Fin n) (S : Finset (Fin n)),
        is_k_forcing_vertex_checked G v S k =
          .ok (is_k_forcing_vertex G v S k.num.toNat)) ∧
      minimum_k_forcing_set_checked G k = .ok (minimum_k_forcing_set G k.num.toNat) ∧
      minimum_connected_k_forcing_set G k =
        .ok (minimum_connected_k_forcing_set_pure G k.num.toNat) ∧
      minimum_k_power_dominating_set_checked G k =
        .ok (minimum_k_power_dominating_set_pure G k.num.toNat) ∧
      sub_k_domination_number G k = .ok (sub_k_domination_search G k.num)) := by
  constructor
  · intro hk
    rcases validate_k_eq_error hk with ⟨e, he⟩
    refine ⟨?_, ?_, ?_, ?_, ?_⟩
    · intro v S
      exact ⟨e, by rw [is_k_forcing_vertex_checked, he]; rfl⟩
    · refine ⟨e, ?_⟩
      have hne1 : k ≠ (1 : ℚ) := fun h => hk (h ▸ goodK_one)
      rw [minimum_k_forcing_set_checked, if_neg hne1]
      refine searchSizesE_bad_from_one hn ?_ (by omega)
      intro S hS
      exact is_k_forcing_set_checked_bad_eq he G
        (fun hc => by rw [hc] at hS; simp at hS) hn
    · exact ⟨e, by rw [minimum_connected_k_forcing_set, he]; rfl⟩
    · refine ⟨e, ?_⟩
      rw [minimum_k_power_dominating_set_checked]
      refine searchSizesE_bad_from_one hn ?_ (by omega)
      intro S hS
      have hSne : S.Nonempty := Finset.card_pos.mp (by omega)
      rw [is_k_power_dominating_set_checked]
      exact is_k_forcing_set_checked_bad_eq he G
        (set_closed_neighbors_nonempty G hSne) hn
    · exact ⟨e, by rw [sub_k_domination_number, he]; rfl⟩
  · intro hk
    refine ⟨?_, ?_, ?_, ?_, ?_⟩
    · intro v S
      rw [is_k_forcing_vertex_checked, validate_k_eq_ok hk]
      rfl
    · rw [minimum_k_forcing_set_checked, minimum_k_forcing_set]
      have hiff : (if k = (1 : ℚ) then minimum_degree G else 1) =
          (if k.num.toNat = 1 then minimum_degree G else 1) := by
        by_cases h1 : k = (1 : ℚ)
        · rw [if_pos h1, if_pos ((goodK_one_iff hk).mp h1)]
        · rw [if_neg h1, if_neg (fun hc => h1 ((goodK_one_iff hk).mpr hc))]
      rw [hiff]
      exact searchSizesE_good (fun S => is_k_forcing_set_checked_good hk G S) _ _
    · rw [minimum_connected_k_forcing_set, validate_k_eq_ok hk]
      rfl
    · rw [minimum_k_power_dominating_set_checked,
        minimum_k_power_dominating_set_pure]
      exact searchSizesE_good
        (fun S => is_k_forcing_set_checked_good hk G (set_closed_neighbors G S)) _ _
    · rw [sub_k_domination_number, validate_k_eq_ok hk]
      rfl

/-- The path graph on two vertices (a single edge), a concrete test instance. -/
def pathGraph2 : Graph 2 :=
  ⟨fun u v => decide ((u : ℕ) + 1 = v ∨ (v : ℕ) + 1 = u), by decide, by decide⟩

/-- The path graph 0 - 1 - 2 on three vertices, a concrete test instance. -/
def pathGraph3 : Graph 3 :=
  ⟨fun u v => decide ((u : ℕ) + 1 = v ∨ (v : ℕ) + 1 = u), by decide, by decide⟩

/-- Two vertices and no edge: both vertices are isolated. -/
def emptyGraph2 : Graph 2 :=
  ⟨fun _ _ => false, fun _ _ => rfl, fun _ => rfl⟩

theorem close_monotone_in_seed_witness :
    ((1 : ℕ) ≤ 1 ∧ ({0} : Finset (Fin 3)) ⊆ {0, 1}) ∧
    (k_forcing_closure pathGraph3 1 {0} ⊆ k_forcing_closure pathGraph3 1 {0, 1} ∧
     psd_color_change pathGraph3 {0} ⊆ psd_color_change pathGraph3 {0, 1} ∧
     (is_k_forcing_set pathGraph3 {0} 1 = true →
       is_k_forcing_set pathGraph3 {0, 1} 1 = true) ∧
     (is_psd_zero_forcing_set pathGraph3 {0} = true →
       is_psd_zero_forcing_set pathGraph3 {0, 1} = true)) :=
  ⟨⟨le_refl 1, by decide⟩,
    close_monotone_in_seed pathGraph3 {0} {0, 1} 1 (le_refl 1) (by decide)⟩

theorem minimum_k_forcing_set_one_min_witness :
    (1 : ℕ) ≤ 2 ∧
    ((∀ T : Finset (Fin 2), is_k_forcing_set pathGraph2 T 1 = true →
      minimum_degree pathGraph2 ≤ T.card) ∧
     ∃ S, minimum_k_forcing_set pathGraph2 1 = some S ∧
       is_k_forcing_set pathGraph2 S 1 = true ∧
       ∀ T : Finset (Fin 2), is_k_forcing_set pathGraph2 T 1 = true →
         S.card ≤ T.card) :=
  ⟨by decide, minimum_k_forcing_set_one_min pathGraph2 (by decide)⟩

theorem total_zero_forcing_infeasible_of_isolated_witness :
    ((2 : ℕ) ≤ 2 ∧ degree emptyGraph2 0 = 0) ∧
    ((∀ S : Finset (Fin 2), is_total_zero_forcing_set emptyGraph2 S = false) ∧
     minimum_total_zero_forcing_set emptyGraph2 = none ∧
     total_zero_forcing_number emptyGraph2 = none) :=
  ⟨⟨le_refl 2, by decide⟩,
    total_zero_forcing_infeasible_of_isolated emptyGraph2 (le_refl 2) 0 (by decide)⟩

theorem minimum_k_forcing_set_never_none_witness :
    ((1 : ℕ) ≤ 2 ∧ (1 : ℕ) ≤ 1) ∧
    (is_k_forcing_set pathGraph2 Finset.univ 1 = true ∧
     ∃ S, minimum_k_forcing_set pathGraph2 1 = some S) :=
  ⟨⟨by decide, le_refl 1⟩,
    minimum_k_forcing_set_never_none pathGraph2 1 (by decide) (le_refl 1)⟩

theorem k_parameter_validation_witness :
    (1 : ℕ) ≤ 2 ∧ ¬ goodK (0 : ℚ) ∧
    (∃ e, minimum_k_forcing_set_checked pathGraph2 (0 : ℚ) = .error e) :=
  ⟨by decide, by decide,
    ((k_parameter_validation pathGraph2 (0 : ℚ) (by decide)).1 (by decide)).2.1⟩

/-- The statuses the external LP solver can report (pulp's LpStatus). -/
inductive SolverStatus where
  | optimal
  | notSolved
  | infeasible
  | unbounded
  | undefined
deriving DecidableEq

/-- The failure the classics wrappers raise when the solve is not Optimal
(`NoOptimal` in the spec's error taxonomy; a ValueError in the source). -/
inductive SolveErr where
  | noOptimal
deriving DecidableEq

/-- Post-solve handling of `maximum_independent_set`
(src/graphcalc/invariants/classics.py, lines 80-85): raise unless the reported
status is Optimal, then return the decoded solution (the 1-valued variables,
abstracted as `sol` because the solve itself is external). -/
def maximum_independent_set_post {α : Type} (status : SolverStatus) (sol : α) :
    Except SolveErr α :=
  if status ≠ SolverStatus.optimal then .error .noOptimal else .ok sol

/-- Post-solve handling of `optimal_proper_coloring` (classics.py, lines
222-227): same Optimal check before decoding the color classes. -/
def optimal_proper_coloring_post {α : Type} (status : SolverStatus) (sol : α) :
    Except SolveErr α :=
  if status ≠ SolverStatus.optimal then .error .noOptimal else .ok sol

/-- Post-solve handling of `maximum_matching` (classics.py, lines 407-412):
same Optimal check before decoding the chosen edges. -/
def maximum_matching_post {α : Type} (status : SolverStatus) (sol : α) :
    Except SolveErr α :=
  if status ≠ SolverStatus.optimal then .error .noOptimal else .ok sol

/-- Post-solve handling of `minimum_dominating_set` (graphcomp/domination.py,
lines 39-41): the variable values are read immediately after `prob.solve()`,
with no inspection of `prob.status`. -/
def minimum_dominating_set_post {α : Type} (_status : SolverStatus) (sol : α) :
    Except SolveErr α :=
  .ok sol

/-- Post-solve handling of `minimum_total_domination_set` (domination.py,
lines 59-61): no status check. -/
def minimum_total_domination_set_post {α : Type} (_status : SolverStatus)
    (sol : α) : Except SolveErr α :=
  .ok sol

/-- Post-solve handling of `minimum_independent_dominating_set` (domination.py,
lines 82-84): no status check. -/
def minimum_independent_dominating_set_post {α : Type} (_status : SolverStatus)
    (sol : α) : Except SolveErr α :=
  .ok sol

/-- Post-solve handling of `roman_domination` (domination.py, lines 132-141):
no status check. -/
def roman_domination_post {α : Type} (_status : SolverStatus) (sol : α) :
    Except SolveErr α :=
  .ok sol

/-- Post-solve handling of `double_roman_domination` (domination.py, lines
175-185): no status check. -/
def double_roman_domination_post {α : Type} (_status : SolverStatus) (sol : α) :
    Except SolveErr α :=
  .ok sol

/-- Post-solve handling of `solve_rainbow_domination` (domination.py, lines
216-228): no status check. -/
def rainbow_domination_post {α : Type} (_status : SolverStatus) (sol : α) :
    Except SolveErr α :=
  .ok sol

/-- Post-solve handling of `minimum_restrained_dominating_set` (domination.py,
lines 261-266): no status check. -/
def minimum_restrained_dominating_set_post {α : Type} (_status : SolverStatus)
    (sol : α) : Except SolveErr α :=
  .ok sol

/-- **C2 (counterexample).** The claim says every ILP-backed invariant fails on
a non-Optimal status; but `minimum_dominating_set` decodes a result even for
an Infeasible solve. -/
theorem minimum_dominating_set_ignores_status :
    SolverStatus.infeasible ≠ SolverStatus.optimal ∧
    minimum_dominating_set_post SolverStatus.infeasible (0 : ℕ) =
      Except.ok 0 := by
  exact ⟨by decide, rfl⟩

/-- **C2 (amended).** The classics ILP invariants (maximum independent set,
coloring, matching) check the solver status and fail with NoOptimal on every
non-Optimal status; the domination-variant solvers in domination.py perform no
status check and return the decoded values for every status. -/
theorem ilp_status_check_split {α : Type} (status : SolverStatus) (sol : α) :
    (status ≠ SolverStatus.optimal →
      maximum_independent_set_post status sol = .error .noOptimal ∧
      optimal_proper_coloring_post status sol = .error .noOptimal ∧
      maximum_matching_post status sol = .error .noOptimal) ∧
    (minimum_dominating_set_post status sol = .ok sol ∧
     minimum_total_domination_set_post status sol = .ok sol ∧
     minimum_independent_dominating_set_post status sol = .ok sol ∧
     roman_domination_post status sol = .ok sol ∧
     double_roman_domination_post status sol = .ok sol ∧
     rainbow_domination_post status sol = .ok sol ∧
     minimum_restrained_dominating_set_post status sol = .ok sol) := by
  refine ⟨fun hne => ⟨?_, ?_, ?_⟩, rfl, rfl, rfl, rfl, rfl, rfl, rfl⟩
  · simp [maximum_independent_set_post, hne]
  · simp [optimal_proper_coloring_post, hne]
  · simp [maximum_matching_post, hne]

theorem ilp_status_check_split_witness :
    SolverStatus.infeasible ≠ SolverStatus.optimal ∧
    maximum_independent_set_post SolverStatus.infeasible (0 : ℕ) =
      .error .noOptimal ∧
    minimum_dominating_set_post SolverStatus.infeasible (0 : ℕ) = .ok 0 :=
  ⟨by decide,
    ((ilp_status_check_split SolverStatus.infeasible (0 : ℕ)).1 (by decide)).1,
    (ilp_status_check_split SolverStatus.infeasible (0 : ℕ)).2.1⟩

/-- The constraint set of the 0/1 program built by
`minimum_independent_dominating_set` (graphcomp/domination.py, lines 66-84),
evaluated on a binary assignment x: the edge rows x_u + x_v ≤ 1 from lines
74-75, and the domination rows of lines 78-80 exactly as the source writes
them — the sum of x over the OPEN neighborhood of each vertex is at least 1
(line 79 filters with `neighborhood`, not `closed_neighborhood`). -/
def indep_dom_lp_feasible (G : Graph n) (x : Fin n → Bool) : Prop :=
  (∀ u v : Fin n, G.adj u v = true → ¬ (x u = true ∧ x v = true)) ∧
  (∀ v : Fin n, ∃ u ∈ neighborhood G v, x u = true)

/-- The program the spec prescribes for the same invariant (spec section 4.4):
the dominating-set LP over CLOSED neighborhoods plus the edge constraints.
Stated from the spec's words for comparison with the source's program. -/
def indep_dom_lp_spec_feasible (G : Graph n) (x : Fin n → Bool) : Prop :=
  (∀ u v : Fin n, G.adj u v = true → ¬ (x u = true ∧ x v = true)) ∧
  (∀ v : Fin n, ∃ u ∈ closed_neighborhood G v, x u = true)

instance indep_dom_lp_feasible_dec (G : Graph n) (x : Fin n → Bool) :
    Decidable (indep_dom_lp_feasible G x) :=
  decidable_of_iff ((∀ u v : Fin n, G.adj u v = true → ¬ (x u = true ∧ x v = true)) ∧
    (∀ v : Fin n, ∃ u ∈ neighborhood G v, x u = true)) Iff.rfl

instance indep_dom_lp_spec_feasible_dec (G : Graph n) (x : Fin n → Bool) :
    Decidable (indep_dom_lp_spec_feasible G x) :=
  decidable_of_iff ((∀ u v : Fin n, G.adj u v = true → ¬ (x u = true ∧ x v = true)) ∧
    (∀ v : Fin n, ∃ u ∈ closed_neighborhood G v, x u = true)) Iff.rfl

/-- `is_dominating_set` (domination.py, lines 23-24). -/
def is_dominating_set (G : Graph n) (S : Finset (Fin n)) : Bool :=
  decide (∀ v : Fin n, ∃ u ∈ closed_neighborhood G v, u ∈ S)

/-- **C1.** The integer program that `minimum_independent_dominating_set`
actually builds is infeasible on every graph with at least one vertex: its
domination rows use open neighborhoods, so a feasible x would name an
independent set in which every chosen vertex still needs a chosen neighbor.
Consequently the function never returns a minimum independent dominating set. -/
theorem independent_domination_lp_infeasible {n : ℕ} (G : Graph n)
    (hn : 1 ≤ n) : ∀ x : Fin n → Bool, ¬ indep_dom_lp_feasible G x := by
  rintro x ⟨hedge, hdom⟩
  by_cases hex : ∃ v, x v = true
  · rcases hex with ⟨v, hv⟩
    rcases hdom v with ⟨u, hunb, hu⟩
    exact hedge v u (mem_neighborhood.mp hunb) ⟨hv, hu⟩
  · push_neg at hex
    rcases hdom ⟨0, hn⟩ with ⟨u, -, hu⟩
    exact absurd hu (by simp [hex u])

theorem independent_domination_lp_infeasible_witness :
    (1 : ℕ) ≤ 2 ∧
    (∀ x : Fin 2 → Bool, ¬ indep_dom_lp_feasible pathGraph2 x) ∧
    indep_dom_lp_spec_feasible pathGraph2 (fun v => decide (v = 0)) ∧
    is_dominating_set pathGraph2 {0} = true :=
  ⟨by decide, independent_domination_lp_infeasible pathGraph2 (by decide),
    by decide, by decide⟩

/-- Sorted copy of a list of naturals in non-decreasing order (`D.sort()`). -/
def sortAscN (l : List ℕ) : List ℕ :=
  l.insertionSort (fun a b => a ≤ b)

/-- `size(G)` (basics.py, lines 335-358): the number of edges, counted as
ordered adjacent pairs with increasing indices. -/
def size (G : Graph n) : ℕ :=
  (Finset.univ.filter
    (fun p : Fin n × Fin n => G.adj p.1 p.2 = true ∧ p.1 < p.2)).card

/-- `annihilation_number` (degree_sequence_invariants.py, lines 207-263): sort
the degree sequence ascending, then walk i = n, n-1, ..., 0 and return the
first i whose prefix sum is at most the edge count; the loop body is the only
return, so completing the loop would give None. -/
def annihilation_number (G : Graph n) : Option ℕ :=
  ((List.range (n + 1)).reverse).find?
    (fun i => ((sortAscN (degree_sequence G)).take i).sum ≤ size G)

lemma find?_reverse_range_some {p : ℕ → Bool} :
    ∀ {c t : ℕ}, ((List.range c).reverse).find? p = some t →
      p t = true ∧ t < c ∧ ∀ s, t < s → s < c → p s = false := by
  intro c
  induction c with
  | zero => intro t h; simp at h
  | succ c ih =>
    intro t h
    rw [List.range_succ, List.reverse_append] at h
    simp only [List.reverse_singleton, List.singleton_append] at h
    rw [List.find?] at h
    cases hc : p c with
    | true =>
      rw [hc] at h
      simp only [Option.some.injEq] at h
      subst h
      exact ⟨hc, Nat.lt_succ_self c, fun s h1 h2 => by omega⟩
    | false =>
      rw [hc] at h
      simp only at h
      rcases ih h with ⟨hp, hlt, hmin⟩
      refine ⟨hp, by omega, ?_⟩
      intro s h1 h2
      rcases Nat.lt_succ_iff_lt_or_eq.mp h2 with h3 | h3
      · exact hmin s h1 h3
      · exact h3 ▸ hc

lemma find?_reverse_range_isSome {p : ℕ → Bool} {c : ℕ} (h0 : p 0 = true)
    (hc : 1 ≤ c) : (((List.range c).reverse).find? p).isSome :=
  List.find?_isSome.mpr ⟨0, by rw [List.mem_reverse, List.mem_range]; omega, h0⟩

/-- **C8.** For n ≥ 1 the descending loop of `annihilation_number` always
returns a value, namely the largest t ≤ n for which the sum of the t smallest
degrees is at most the number of edges. -/
theorem annihilation_number_largest {n : ℕ} (G : Graph n) (hn : 1 ≤ n) :
    ∃ t, annihilation_number G = some t ∧ t ≤ n ∧
      ((sortAscN (degree_sequence G)).take t).sum ≤ size G ∧
      ∀ s, s ≤ n → ((sortAscN (degree_sequence G)).take s).sum ≤ size G →
        s ≤ t := by
  have h0 : (decide (((sortAscN (degree_sequence G)).take 0).sum ≤ size G)) = true :=
    decide_eq_true (by simp)
  have hsome := find?_reverse_range_isSome (p := fun i =>
    decide (((sortAscN (degree_sequence G)).take i).sum ≤ size G)) (c := n + 1)
    h0 (by omega)
  rcases Option.isSome_iff_exists.mp hsome with ⟨t, ht⟩
  rcases find?_reverse_range_some ht with ⟨hp, hlt, hmin⟩
  refine ⟨t, ht, by omega, of_decide_eq_true hp, ?_⟩
  intro s hs hsum
  by_contra hgt
  push_neg at hgt
  have := hmin s hgt (by omega)
  rw [decide_eq_true hsum] at this
  exact Bool.true_eq_false.mp this

theorem annihilation_number_largest_witness :
    (1 : ℕ) ≤ 2 ∧
    ∃ t, annihilation_number pathGraph2 = some t ∧ t ≤ 2 ∧
      ((sortAscN (degree_sequence pathGraph2)).take t).sum ≤ size pathGraph2 ∧
      ∀ s, s ≤ 2 →
        ((sortAscN (degree_sequence pathGraph2)).take s).sum ≤ size pathGraph2 →
        s ≤ t :=
  ⟨by decide, annihilation_number_largest pathGraph2 (by decide)⟩

/-- The Python dynamic type of a graph value: the plain networkx base class or
the SimpleGraph subtype of basics.py. -/
inductive PyGraphKind where
  | nxGraph
  | simpleGraph
deriving DecidableEq

/-- A graph value as the library passes it around: the mathematical graph
together with its Python dynamic type. -/
structure PyGraph (n : ℕ) where
  graph : Graph n
  kind : PyGraphKind

/-- The complement of the underlying graph: same vertex set, adjacency exactly
on the non-adjacent distinct pairs. -/
def complementGraph (G : Graph n) : Graph n where
  adj := fun u v => decide (u ≠ v) && ! G.adj u v
  symm := by
    intro u v
    show (decide (u ≠ v) && ! G.adj u v) = (decide (v ≠ u) && ! G.adj v u)
    rw [G.symm u v]
    by_cases h : u = v
    · rw [h]
    · rw [decide_eq_true (show u ≠ v from h),
        decide_eq_true (show v ≠ u from fun hc => h hc.symm)]
  loopless := by intro v; simp

/-- `SimpleGraph.complement` (basics.py, lines 297-309): returns
`nx.complement(nx.Graph(self))`, the complement as a plain base graph so that
SimpleGraph-specific behavior is not inherited. -/
def SimpleGraph_complement (g : PyGraph n) : PyGraph n :=
  ⟨complementGraph g.graph, PyGraphKind.nxGraph⟩

/-- `nx.complement(G)` for a plain graph argument: also a plain base graph. -/
def nx_complement (g : PyGraph n) : PyGraph n :=
  ⟨complementGraph g.graph, PyGraphKind.nxGraph⟩

/-- The graph on which `maximum_clique` and `clique_number` (classics.py,
lines 137-140 and 167-168) run the recursive `maximum_independent_set` /
`independence_number` call: `G.complement()` when the argument carries the
method (the SimpleGraph subtype), `nx.complement(G)` otherwise. -/
def maximum_clique_target (g : PyGraph n) : PyGraph n :=
  match g.kind with
  | PyGraphKind.simpleGraph => SimpleGraph_complement g
  | PyGraphKind.nxGraph => nx_complement g

/-- The optimum value of the maximum-independent-set integer program
(classics.py, lines 60-85): the largest cardinality over subsets meeting the
edge constraints x_u + x_v ≤ 1. -/
def independence_ilp_optimum (G : Graph n) : ℕ :=
  (Finset.univ.powerset.filter
    (fun S : Finset (Fin n) => ∀ u ∈ S, ∀ v ∈ S, G.adj u v = false)).sup
    Finset.card

/-- `clique_number` (classics.py, lines 142-168): the independence number of
the complement, routed through `maximum_clique_target`. -/
def clique_number (g : PyGraph n) : ℕ :=
  independence_ilp_optimum (maximum_clique_target g).graph

/-- **C9.** `SimpleGraph.complement` yields a plain base graph (never the
SimpleGraph subtype) on the same vertex set `Fin n` whose edges are exactly
the non-edges, and the clique computations route their recursive call through
this stripped complement, so the recursion runs on a plain graph. -/
theorem complement_strips_subtype {n : ℕ} (g : PyGraph n)
    (h : g.kind = PyGraphKind.simpleGraph) :
    (SimpleGraph_complement g).kind = PyGraphKind.nxGraph ∧
    (∀ u v : Fin n, (SimpleGraph_complement g).graph.adj u v = true ↔
      (u ≠ v ∧ g.graph.adj u v = false)) ∧
    maximum_clique_target g = SimpleGraph_complement g ∧
    clique_number g = independence_ilp_optimum (SimpleGraph_complement g).graph ∧
    (maximum_clique_target g).kind = PyGraphKind.nxGraph := by
  have htarget : maximum_clique_target g = SimpleGraph_complement g := by
    unfold maximum_clique_target
    rw [h]
  refine ⟨rfl, ?_, htarget, ?_, ?_⟩
  · intro u v
    show (decide (u ≠ v) && ! g.graph.adj u v) = true ↔ _
    rw [Bool.and_eq_true, decide_eq_true_eq, Bool.not_eq_true']
  · rw [clique_number, htarget]
  · rw [htarget]; rfl

theorem complement_strips_subtype_witness :
    (PyGraph.mk pathGraph2 PyGraphKind.simpleGraph).kind =
      PyGraphKind.simpleGraph ∧
    ((SimpleGraph_complement ⟨pathGraph2, PyGraphKind.simpleGraph⟩).kind =
      PyGraphKind.nxGraph ∧
     (∀ u v : Fin 2,
       (SimpleGraph_complement ⟨pathGraph2, PyGraphKind.simpleGraph⟩).graph.adj
         u v = true ↔ (u ≠ v ∧ pathGraph2.adj u v = false)) ∧
     maximum_clique_target ⟨pathGraph2, PyGraphKind.simpleGraph⟩ =
       SimpleGraph_complement ⟨pathGraph2, PyGraphKind.simpleGraph⟩ ∧
     clique_number ⟨pathGraph2, PyGraphKind.simpleGraph⟩ =
       independence_ilp_optimum
         (SimpleGraph_complement ⟨pathGraph2, PyGraphKind.simpleGraph⟩).graph ∧
     (maximum_clique_target ⟨pathGraph2, PyGraphKind.simpleGraph⟩).kind =
       PyGraphKind.nxGraph) :=
  ⟨rfl, complement_strips_subtype ⟨pathGraph2, PyGraphKind.simpleGraph⟩ rfl⟩

/-- Sorted copy of an integer list in non-increasing order
(`degrees.sort(reverse=True)`); entries are integers because Python's
decrements may in general drive them negative. -/
def sortDescZ (l : List ℤ) : List ℤ :=
  l.insertionSort (fun a b => b ≤ a)

/-- `for i in range(d): degrees[i] -= 1` on the remaining list; `none` models
the IndexError Python raises when fewer than d entries remain. -/
def decListO : ℕ → List ℤ → Option (List ℤ)
  | 0, l => some l
  | _ + 1, [] => none
  | d + 1, x :: xs => (decListO d xs).map (fun ys => (x - 1) :: ys)

/-- The while loop of `residue` (degree_sequence_invariants.py, lines 322-326),
returning the final list: while the head is positive, pop it, decrement the
next head-many entries and re-sort descending.  `none` models an uncaught
IndexError (`degrees[0]` on an empty list or a too-short decrement); the fuel
bounds the number of iterations, each of which removes exactly one entry. -/
def hhLoop : ℕ → List ℤ → Option (List ℤ)
  | _, [] => none
  | fuel, d :: t =>
    if d ≤ 0 then some (d :: t)
    else
      match fuel with
      | 0 => none
      | fuel + 1 =>
        match decListO d.toNat t with
        | none => none
        | some t2 => hhLoop fuel (sortDescZ t2)

/-- `residue(G)` (degree_sequence_invariants.py, lines 265-328): run the
Havel-Hakimi loop on the descending degree sequence and return `len(degrees)`
of the final list. -/
def residue (G : Graph n) : Option ℕ :=
  (hhLoop n (sortDescZ ((degree_sequence G).map (fun d => Int.ofNat d)))).map
    List.length

/-- The degree sequence of a graph as a multiset of integers. -/
def degreeMSZ (G : Graph n) : Multiset ℤ :=
  (((List.finRange n).map (fun v => ((degree G v : ℤ)))) : Multiset ℤ)

/-- A multiset of integers is graphical when some finite simple graph realizes
it as its degree multiset. -/
def graphicalZ (s : Multiset ℤ) : Prop :=
  ∃ (m : ℕ) (H : Graph m), degreeMSZ H = s

lemma card_degreeMSZ (G : Graph n) : Multiset.card (degreeMSZ G) = n := by
  simp [degreeMSZ]

lemma graphicalZ_nonneg {s : Multiset ℤ} (h : graphicalZ s) :
    ∀ x ∈ s, 0 ≤ x := by
  rcases h with ⟨m, H, hH⟩
  intro x hx
  rw [← hH] at hx
  rcases Multiset.mem_coe.mp hx with hx2
  rcases List.mem_map.mp hx2 with ⟨v, -, hv⟩
  rw [← hv]
  exact Int.ofNat_nonneg _

lemma graphicalZ_singleton {x : ℤ} (h : graphicalZ {x}) : x = 0 := by
  rcases h with ⟨m, H, hH⟩
  have hcard : m = 1 := by
    have := card_degreeMSZ H
    rw [hH] at this
    simpa using this.symm
  subst hcard
  have hx : (degree H 0 : ℤ) = x := by
    have : degreeMSZ H = {x} := hH
    rw [degreeMSZ] at this
    simp only [List.finRange_succ, List.finRange_zero] at this
    have hlist : ((degree H 0 : ℤ)) ::ₘ (0 : Multiset ℤ) = {x} := by
      simpa using this
    simpa using hlist
  have hdeg : degree H 0 ≤ 0 := by
    have := degree_le_card_pred H 0
    omega
  omega

/-- Relabeling a graph along a permutation of its vertices. -/
def Graph.relabel (H : Graph n) (e : Equiv.Perm (Fin n)) : Graph n where
  adj := fun u v => H.adj (e u) (e v)
  symm := fun u v => H.symm (e u) (e v)
  loopless := fun v => H.loopless (e v)

lemma neighborhood_relabel (H : Graph n) (e : Equiv.Perm (Fin n)) (v : Fin n) :
    neighborhood (H.relabel e) v = (neighborhood H (e v)).image e.symm := by
  ext u
  simp only [mem_neighborhood, Finset.mem_image]
  constructor
  · intro h
    refine ⟨e u, ?_, e.symm_apply_apply u⟩
    exact h
  · rintro ⟨w, hw, rfl⟩
    show H.adj (e v) (e (e.symm w)) = true
    rw [e.apply_symm_apply]
    exact hw

lemma degree_relabel (H : Graph n) (e : Equiv.Perm (Fin n)) (v : Fin n) :
    degree (H.relabel e) v = degree H (e v) := by
  rw [degree, degree, neighborhood_relabel]
  exact Finset.card_image_of_injective _ e.symm.injective

lemma degreeMSZ_relabel (H : Graph n) (e : Equiv.Perm (Fin n)) :
    degreeMSZ (H.relabel e) = degreeMSZ H := by
  unfold degreeMSZ
  rw [Multiset.coe_eq_coe]
  have h1 : (List.finRange n).map (fun v => ((degree (H.relabel e) v : ℤ))) =
      (List.finRange n).map ((fun v => ((degree H v : ℤ))) ∘ e) := by
    apply List.map_congr_left
    intro v _
    simp [degree_relabel]
  rw [h1, ← List.map_map]
  apply List.Perm.map
  rw [← Multiset.coe_eq_coe]
  have hval : ((List.finRange n : List (Fin n)) : Multiset (Fin n)) =
      (Finset.univ : Finset (Fin n)).val := rfl
  have := Finset.map_univ_equiv e
  calc (((List.finRange n).map e : List (Fin n)) : Multiset (Fin n))
      = Multiset.map e ((List.finRange n : List (Fin n)) : Multiset (Fin n)) := by
        simp
    _ = Multiset.map e (Finset.univ : Finset (Fin n)).val := by rw [hval]
    _ = (Finset.map e.toEmbedding (Finset.univ : Finset (Fin n))).val := rfl
    _ = ((List.finRange n : List (Fin n)) : Multiset (Fin n)) := by
        rw [Finset.map_univ_equiv e, hval]

/-- The positional degree list of a graph. -/
def degreeListZ (G : Graph n) : List ℤ :=
  (List.finRange n).map (fun v => ((degree G v : ℤ)))

lemma degreeListZ_length (G : Graph n) : (degreeListZ G).length = n := by
  simp [degreeListZ]

lemma degreeListZ_get (G : Graph n) (i : Fin n) :
    (degreeListZ G).get ⟨i.val, by simp [degreeListZ]⟩ =
      (degree G i : ℤ) := by
  unfold degreeListZ
  rw [List.get_map]
  congr 1
  rw [List.get_finRange]

lemma coe_degreeListZ (G : Graph n) :
    ((degreeListZ G : List ℤ) : Multiset ℤ) = degreeMSZ G := rfl

/-- Every graphical sorted list is realized positionally: some graph on
`Fin l.length` has exactly `l` as its positional degree list. -/
lemma exists_positional {l : List ℤ} (hsort : l.Sorted (fun a b => b ≤ a))
    (hgr : graphicalZ (l : Multiset ℤ)) :
    ∃ H : Graph l.length, degreeListZ H = l := by
  rcases hgr with ⟨m, H0, hH0⟩
  have hm : m = l.length := by
    have h1 := card_degreeMSZ H0
    rw [hH0] at h1
    rw [← h1]
    simp
  subst hm
  set σ := Tuple.sort (fun i => degree H0 i) with hσ
  set e : Equiv.Perm (Fin l.length) := Fin.revPerm.trans σ with he
  refine ⟨H0.relabel e, ?_⟩
  have hanti : ∀ i j : Fin l.length, i < j →
      ((degree (H0.relabel e) j : ℤ)) ≤ ((degree (H0.relabel e) i : ℤ)) := by
    intro i j hij
    rw [degree_relabel, degree_relabel]
    have hrev : j.rev ≤ i.rev := Fin.rev_le_rev.mpr (le_of_lt hij)
    have := Tuple.monotone_sort (fun i => degree H0 i) hrev
    simp only [Function.comp] at this
    have heq1 : e j = σ j.rev := by rw [he, Equiv.trans_apply, Fin.revPerm_apply]
    have heq2 : e i = σ i.rev := by rw [he, Equiv.trans_apply, Fin.revPerm_apply]
    rw [heq1, heq2]
    exact_mod_cast this
  have hsorted2 : (degreeListZ (H0.relabel e)).Sorted (fun a b => b ≤ a) := by
    unfold degreeListZ List.Sorted
    refine List.Pairwise.map _ ?_ (List.pairwise_lt_finRange l.length)
    intro a b hab
    exact hanti a b hab
  have hperm : (degreeListZ (H0.relabel e)).Perm l := by
    rw [← Multiset.coe_eq_coe, coe_degreeListZ, degreeMSZ_relabel, hH0]
  exact List.eq_of_perm_of_sorted hperm hsorted2 hsort

/-- Whether the ordered pair (u,v) names the unordered pair {a,b}. -/
def inPair (a b u v : Fin n) : Bool :=
  (decide (u = a) && decide (v = b)) || (decide (u = b) && decide (v = a))

lemma inPair_symm (a b u v : Fin n) : inPair a b u v = inPair a b v u := by
  unfold inPair
  rw [Bool.or_comm]
  congr 1 <;> rw [Bool.and_comm]

lemma inPair_self {a b : Fin n} (hab : a ≠ b) (v : Fin n) :
    inPair a b v v = false := by
  unfold inPair
  by_cases hva : v = a
  · subst hva
    rw [decide_eq_false (fun h : v = b => hab h)]
    simp
  · rw [decide_eq_false hva]
    simp

lemma inPair_left {a b : Fin n} (hab : a ≠ b) (v : Fin n) :
    inPair a b a v = decide (v = b) := by
  unfold inPair
  rw [decide_eq_true (show a = a from rfl), decide_eq_false hab]
  simp

lemma inPair_right {a b : Fin n} (hab : a ≠ b) (v : Fin n) :
    inPair a b b v = decide (v = a) := by
  unfold inPair
  rw [decide_eq_true (show b = b from rfl),
    decide_eq_false (fun h : b = a => hab h.symm)]
  simp

lemma inPair_none {a b u : Fin n} (hua : u ≠ a) (hub : u ≠ b) (v : Fin n) :
    inPair a b u v = false := by
  unfold inPair
  rw [decide_eq_false hua, decide_eq_false hub]
  simp

/-- The 2-switch of the Havel-Hakimi argument: replace the edges {a,b} and
{c,d} by {a,c} and {b,d}; on all four vertices being distinct, with {a,b} and
{c,d} edges and {a,c} and {b,d} non-edges, every degree is preserved. -/
def twoSwitch (H : Graph n) (a b c d : Fin n) (hab : a ≠ b) (hcd : c ≠ d)
    (hac : a ≠ c) (_had : a ≠ d) (_hbc : b ≠ c) (hbd : b ≠ d) : Graph n where
  adj := fun u v => xor (H.adj u v)
    (inPair a b u v || inPair c d u v || inPair a c u v || inPair b d u v)
  symm := by
    intro u v
    show xor (H.adj u v) _ = xor (H.adj v u) _
    rw [H.symm u v, inPair_symm a b u v, inPair_symm c d u v,
      inPair_symm a c u v, inPair_symm b d u v]
  loopless := by
    intro v
    show xor (H.adj v v) _ = false
    rw [H.loopless v, inPair_self hab, inPair_self hcd, inPair_self hac,
      inPair_self hbd]
    rfl

lemma nbhd_of_toggle {H H2 : Graph n} {x y z : Fin n}
    (hshape : ∀ v, H2.adj x v = xor (H.adj x v) (decide (v = y) || decide (v = z)))
    (hyz : y ≠ z) (hy : H.adj x y = true) (hz : H.adj x z = false) :
    neighborhood H2 x = insert z ((neighborhood H x).erase y) := by
  ext v
  rw [mem_neighborhood, hshape v, Finset.mem_insert, Finset.mem_erase,
    mem_neighborhood]
  by_cases hvy : v = y
  · subst hvy
    rw [decide_eq_true (show v = v from rfl), decide_eq_false (fun h => hyz h)]
    rw [hy]
    simp [fun h : v = z => hyz h, hyz]
  · by_cases hvz : v = z
    · subst hvz
      rw [decide_eq_false (fun h => hvy h), decide_eq_true rfl, hz]
      simp
    · rw [decide_eq_false hvy, decide_eq_false hvz]
      simp [hvz, hvy]

lemma card_insert_erase {N : Finset (Fin n)} {y z : Fin n} (hy : y ∈ N)
    (hz : z ∉ N) : (insert z (N.erase y)).card = N.card := by
  rw [Finset.card_insert_of_not_mem (fun h => hz (Finset.mem_of_mem_erase h)),
    Finset.card_erase_of_mem hy]
  have : 1 ≤ N.card := Finset.card_pos.mpr ⟨y, hy⟩
  omega

lemma twoSwitch_degree (H : Graph n) (a b c d : Fin n) (hab : a ≠ b)
    (hcd : c ≠ d) (hac : a ≠ c) (had : a ≠ d) (hbc : b ≠ c) (hbd : b ≠ d)
    (hAB : H.adj a b = true) (hCD : H.adj c d = true)
    (hAC : H.adj a c = false) (hBD : H.adj b d = false) :
    (∀ u, degree (twoSwitch H a b c d hab hcd hac had hbc hbd) u = degree H u) ∧
    neighborhood (twoSwitch H a b c d hab hcd hac had hbc hbd) a =
      insert c ((neighborhood H a).erase b) := by
  set H2 := twoSwitch H a b c d hab hcd hac had hbc hbd with hH2
  have hshape_a : ∀ v, H2.adj a v =
      xor (H.adj a v) (decide (v = b) || decide (v = c)) := by
    intro v
    show xor (H.adj a v) _ = _
    rw [inPair_left hab, inPair_none hac had, inPair_left hac,
      inPair_none hab had]
    congr 1
    cases decide (v = b) <;> cases decide (v = c) <;> rfl
  have hshape_b : ∀ v, H2.adj b v =
      xor (H.adj b v) (decide (v = a) || decide (v = d)) := by
    intro v
    show xor (H.adj b v) _ = _
    rw [inPair_right hab, inPair_none hbc hbd, inPair_none
      (fun h : b = a => hab h.symm) hbc, inPair_left hbd]
    congr 1
    cases decide (v = a) <;> cases decide (v = d) <;> rfl
  have hshape_c : ∀ v, H2.adj c v =
      xor (H.adj c v) (decide (v = d) || decide (v = a)) := by
    intro v
    show xor (H.adj c v) _ = _
    rw [inPair_none (fun h : c = a => hac h.symm) (fun h : c = b => hbc h.symm),
      inPair_left hcd, inPair_right hac,
      inPair_none (fun h : c = b => hbc h.symm) hcd]
    congr 1
    cases decide (v = d) <;> cases decide (v = a) <;> rfl
  have hshape_d : ∀ v, H2.adj d v =
      xor (H.adj d v) (decide (v = c) || decide (v = b)) := by
    intro v
    show xor (H.adj d v) _ = _
    rw [inPair_none (fun h : d = a => had h.symm) (fun h : d = b => hbd h.symm),
      inPair_right hcd, inPair_none (fun h : d = a => had h.symm)
      (fun h : d = c => hcd h.symm), inPair_right hbd]
    congr 1
    cases decide (v = c) <;> cases decide (v = b) <;> rfl
  have hBA : H.adj b a = true := (H.symm b a).trans hAB
  have hDC : H.adj d c = true := (H.symm d c).trans hCD
  have hCA : H.adj c a = false := (H.symm c a).trans hAC
  have hDB : H.adj d b = false := (H.symm d b).trans hBD
  have hnb_a : neighborhood H2 a = insert c ((neighborhood H a).erase b) :=
    nbhd_of_toggle hshape_a hbc hAB hAC
  have hnb_b : neighborhood H2 b = insert d ((neighborhood H b).erase a) :=
    nbhd_of_toggle hshape_b had hBA hBD
  have hnb_c : neighborhood H2 c = insert a ((neighborhood H c).erase d) :=
    nbhd_of_toggle hshape_c (fun h : d = a => had h.symm) hCD hCA
  have hnb_d : neighborhood H2 d = insert b ((neighborhood H d).erase c) :=
    nbhd_of_toggle hshape_d (fun h : c = b => hbc h.symm) hDC hDB
  refine ⟨?_, hnb_a⟩
  intro u
  by_cases hua : u = a
  · subst hua
    rw [degree, degree, hnb_a]
    exact card_insert_erase (mem_neighborhood.mpr hAB)
      (fun h => by rw [mem_neighborhood.mp h] at hAC; cases hAC)
  · by_cases hub : u = b
    · subst hub
      rw [degree, degree, hnb_b]
      exact card_insert_erase (mem_neighborhood.mpr hBA)
        (fun h => by rw [mem_neighborhood.mp h] at hBD; cases hBD)
    · by_cases huc : u = c
      · subst huc
        rw [degree, degree, hnb_c]
        exact card_insert_erase (mem_neighborhood.mpr hCD)
          (fun h => by rw [mem_neighborhood.mp h] at hCA; cases hCA)
      · by_cases hud : u = d
        · subst hud
          rw [degree, degree, hnb_d]
          exact card_insert_erase (mem_neighborhood.mpr hDC)
            (fun h => by rw [mem_neighborhood.mp h] at hDB; cases hDB)
        · have hsame : neighborhood H2 u = neighborhood H u := by
            ext v
            rw [mem_neighborhood, mem_neighborhood]
            have : H2.adj u v = xor (H.adj u v) false := by
              show xor (H.adj u v) _ = _
              rw [inPair_none hua hub, inPair_none huc hud,
                inPair_none hua huc, inPair_none hub hud]
              rfl
            rw [this, Bool.xor_false]
          rw [degree, degree, hsame]

lemma sdiff_update_card {A N N2 : Finset (Fin n)} {i : Fin n}
    (hmem : ∀ x ∈ A, (x ∈ N2 ↔ (x = i ∨ x ∈ N)))
    (hiA : i ∈ A) (hiN : i ∉ N) :
    (A \ N2).card = (A \ N).card - 1 ∧ 1 ≤ (A \ N).card := by
  have heq : A \ N2 = (A \ N).erase i := by
    ext x
    rw [Finset.mem_sdiff, Finset.mem_erase, Finset.mem_sdiff]
    constructor
    · rintro ⟨hxA, hxN2⟩
      have := (hmem x hxA)
      constructor
      · intro hxi
        exact hxN2 (this.mpr (Or.inl hxi))
      · exact ⟨hxA, fun hxN => hxN2 (this.mpr (Or.inr hxN))⟩
    · rintro ⟨hxi, hxA, hxN⟩
      refine ⟨hxA, fun hxN2 => ?_⟩
      rcases (hmem x hxA).mp hxN2 with h | h
      · exact hxi h
      · exact hxN h
  have hiAN : i ∈ A \ N := Finset.mem_sdiff.mpr ⟨hiA, hiN⟩
  constructor
  · rw [heq, Finset.card_erase_of_mem hiAN]
  · exact Finset.card_pos.mpr ⟨i, hiAN⟩

lemma nbhd_eq_of_diff_card_zero {H : Graph n} {A : Finset (Fin n)} {v0 : Fin n}
    (hzero : (A \ neighborhood H v0).card = 0)
    (hcard : A.card = degree H v0) :
    neighborhood H v0 = A := by
  have h1 : A ⊆ neighborhood H v0 := by
    rw [← Finset.sdiff_eq_empty_iff_subset]
    exact Finset.card_eq_zero.mp hzero
  exact (Finset.eq_of_subset_of_card_le h1
    (le_of_eq (show (neighborhood H v0).card = A.card from hcard.symm))).symm

/-- The normalization step of the Havel-Hakimi argument: a realization with
antitone positional degrees can be rearranged, without changing any degree,
so that vertex 0 is adjacent exactly to the vertices 1, ..., f(0). -/
lemma exists_normalized {m : ℕ} (hm : 0 < m) (f : Fin m → ℕ)
    (hanti : ∀ i j : Fin m, i ≤ j → f j ≤ f i)
    (hdm : f ⟨0, hm⟩ < m) :
    ∀ (c : ℕ) (H : Graph m), (∀ i, degree H i = f i) →
      (Finset.Ioc (⟨0, hm⟩ : Fin m) ⟨f ⟨0, hm⟩, hdm⟩ \
        neighborhood H ⟨0, hm⟩).card ≤ c →
      ∃ H2 : Graph m, (∀ i, degree H2 i = f i) ∧
        neighborhood H2 ⟨0, hm⟩ =
          Finset.Ioc (⟨0, hm⟩ : Fin m) ⟨f ⟨0, hm⟩, hdm⟩ := by
  intro c
  set v0 : Fin m := ⟨0, hm⟩ with hv0
  set A : Finset (Fin m) := Finset.Ioc v0 ⟨f v0, hdm⟩ with hA
  have hcardA : A.card = f v0 := by
    rw [hA, Fin.card_Ioc]
    show f v0 - 0 = f v0
    omega
  induction c with
  | zero =>
    intro H hdeg hc
    exact ⟨H, hdeg, nbhd_eq_of_diff_card_zero (Nat.le_zero.mp hc)
      (by rw [hcardA, hdeg v0])⟩
  | succ c ih =>
    intro H hdeg hc
    by_cases h0 : (A \ neighborhood H v0).card = 0
    · exact ⟨H, hdeg, nbhd_eq_of_diff_card_zero h0 (by rw [hcardA, hdeg v0])⟩
    · set N : Finset (Fin m) := neighborhood H v0 with hN
      have hANpos : 0 < (A \ N).card := Nat.pos_of_ne_zero h0
      rcases Finset.card_pos.mp hANpos with ⟨i, hiAN⟩
      rcases Finset.mem_sdiff.mp hiAN with ⟨hiA, hiN⟩
      have hNApos : 0 < (N \ A).card := by
        have e1 := Finset.card_inter_add_card_sdiff A N
        have e2 := Finset.card_inter_add_card_sdiff N A
        have e3 : (A ∩ N).card = (N ∩ A).card := by rw [Finset.inter_comm]
        have e4 : N.card = A.card := by
          rw [hcardA, hN, ← hdeg v0]; rfl
        omega
      rcases Finset.card_pos.mp hNApos with ⟨j, hjNA⟩
      rcases Finset.mem_sdiff.mp hjNA with ⟨hjN, hjA⟩
      have hiA2 : 0 < i.val ∧ i.val ≤ f v0 := by
        have := Finset.mem_Ioc.mp (hA ▸ hiA)
        exact ⟨this.1, this.2⟩
      have hjv0 : j ≠ v0 := by
        intro h
        rw [h] at hjN
        exact not_self_mem_neighborhood H v0 hjN
      have hjval : f v0 < j.val := by
        by_contra hle
        push_neg at hle
        apply hjA
        rw [hA]
        refine Finset.mem_Ioc.mpr ⟨?_, ?_⟩
        · show (0 : ℕ) < j.val
          rcases Nat.eq_zero_or_pos j.val with h | h
          · exact absurd (Fin.ext h : j = v0) hjv0
          · exact h
        · show j.val ≤ f v0
          exact hle
      have hij : i < j := by
        show i.val < j.val
        omega
      have hiv0 : i ≠ v0 := by
        intro h
        rw [h] at hiA2
        exact absurd hiA2.1 (by simp [hv0])
      have hdegji : f j ≤ f i := hanti i j (le_of_lt hij)
      by_cases heq : f i = f j
      · -- equal degrees: transpose the labels i and j
        set e := Equiv.swap i j with he
        set H2 := H.relabel e with hH2
        have hdeg2 : ∀ x, degree H2 x = f x := by
          intro x
          rw [hH2, degree_relabel]
          by_cases hxi : x = i
          · rw [hxi, he, Equiv.swap_apply_left, hdeg j, heq]
          · by_cases hxj : x = j
            · rw [hxj, he, Equiv.swap_apply_right, hdeg i, heq]
            · rw [he, Equiv.swap_apply_of_ne_of_ne hxi hxj, hdeg x]
        have hv0fix : e v0 = v0 :=
          Equiv.swap_apply_of_ne_of_ne (fun h => hiv0 h.symm)
            (fun h => hjv0 h.symm)
        have hmemN2 : ∀ x, x ∈ neighborhood H2 v0 ↔ e x ∈ N := by
          intro x
          rw [hH2, neighborhood_relabel, hv0fix]
          constructor
          · intro hx
            rcases Finset.mem_image.mp hx with ⟨w, hw, hwx⟩
            have : w = e x := by
              rw [← hwx, he, Equiv.symm_swap]
              exact (Equiv.swap_apply_self i j w).symm
            rw [← this]
            exact hw
          · intro hx
            refine Finset.mem_image.mpr ⟨e x, hx, ?_⟩
            rw [he, Equiv.symm_swap, Equiv.swap_apply_self]
        have hupdate : ∀ x ∈ A, (x ∈ neighborhood H2 v0 ↔ (x = i ∨ x ∈ N)) := by
          intro x hxA
          rw [hmemN2 x]
          by_cases hxi : x = i
          · subst hxi
            rw [he, Equiv.swap_apply_left]
            simp [hjN]
          · have hxj : x ≠ j := fun h => hjA (h ▸ hxA)
            rw [he, Equiv.swap_apply_of_ne_of_ne hxi hxj]
            simp [hxi]
        rcases sdiff_update_card hupdate hiA hiN with ⟨hcard2, hge1⟩
        refine ih H2 hdeg2 ?_
        rw [hcard2]
        omega
      · -- strictly smaller degree at j: perform a 2-switch
        have hlt : f j < f i := lt_of_le_of_ne hdegji (fun h => heq h.symm)
        have hv0Nj : v0 ∈ neighborhood H j := by
          rw [neighborhood_symm]
          exact hjN
        have hv0Ni : v0 ∉ neighborhood H i := by
          rw [neighborhood_symm]
          exact hiN
        have hjself : j ∉ neighborhood H j := not_self_mem_neighborhood H j
        have hBcard : ((insert j (neighborhood H j)).erase v0).card = f j := by
          rw [Finset.card_erase_of_mem
            (Finset.mem_insert_of_mem hv0Nj),
            Finset.card_insert_of_not_mem hjself]
          rw [show (neighborhood H j).card = f j from hdeg j]
          omega
        have hwex : ∃ w ∈ neighborhood H i,
            w ∉ (insert j (neighborhood H j)).erase v0 := by
          by_contra hsub
          push_neg at hsub
          have : degree H i ≤ f j := by
            rw [← hBcard]
            exact Finset.card_le_card hsub
          rw [hdeg i] at this
          omega
        rcases hwex with ⟨w, hwNi, hwB⟩
        have hwv0 : w ≠ v0 := fun h => hv0Ni (h ▸ hwNi)
        have hwj : w ≠ j := by
          intro h
          apply hwB
          rw [h]
          exact Finset.mem_erase.mpr ⟨hjv0, Finset.mem_insert_self j _⟩
        have hwNj : w ∉ neighborhood H j := by
          intro hmem
          exact hwB (Finset.mem_erase.mpr ⟨hwv0, Finset.mem_insert_of_mem hmem⟩)
        have hwi : w ≠ i := fun h => not_self_mem_neighborhood H i (h ▸ hwNi)
        -- 2-switch with a = v0, b = j, c = i, d = w
        have hAB : H.adj v0 j = true := mem_neighborhood.mp hjN
        have hCD : H.adj i w = true := mem_neighborhood.mp hwNi
        have hAC : H.adj v0 i = false := by
          cases hadj : H.adj v0 i with
          | false => rfl
          | true => exact absurd (mem_neighborhood.mpr hadj) hiN
        have hBD : H.adj j w = false := by
          cases hadj : H.adj j w with
          | false => rfl
          | true => exact absurd (mem_neighborhood.mpr hadj) hwNj
        have hab : v0 ≠ j := fun h => hjv0 h.symm
        have hcd : i ≠ w := fun h => hwi h.symm
        have hac : v0 ≠ i := fun h => hiv0 h.symm
        have had : v0 ≠ w := fun h => hwv0 h.symm
        have hbc : j ≠ i := fun h => (Fin.lt_irrefl j) (h ▸ hij)
        have hbd : j ≠ w := fun h => hwj h.symm
        set H2 := twoSwitch H v0 j i w hab hcd hac had hbc hbd with hH2
        rcases twoSwitch_degree H v0 j i w hab hcd hac had hbc hbd
          hAB hCD hAC hBD with ⟨hdegpres, hnbhd⟩
        have hdeg2 : ∀ x, degree H2 x = f x := by
          intro x
          rw [hH2, hdegpres x, hdeg x]
        have hupdate : ∀ x ∈ A, (x ∈ neighborhood H2 v0 ↔ (x = i ∨ x ∈ N)) := by
          intro x hxA
          rw [hH2, hnbhd, Finset.mem_insert, Finset.mem_erase]
          have hxj : x ≠ j := fun h => hjA (h ▸ hxA)
          constructor
          · rintro (h | ⟨-, h⟩)
            · exact Or.inl h
            · exact Or.inr h
          · rintro (h | h)
            · exact Or.inl h
            · exact Or.inr ⟨hxj, h⟩
        rcases sdiff_update_card hupdate hiA hiN with ⟨hcard2, hge1⟩
        refine ih H2 hdeg2 ?_
        rw [hcard2]
        omega

/-- Deleting vertex 0 of a graph on m+1 vertices. -/
def deleteZero (H : Graph (n + 1)) : Graph n where
  adj := fun u v => H.adj u.succ v.succ
  symm := fun u v => H.symm u.succ v.succ
  loopless := fun v => H.loopless v.succ

lemma degree_deleteZero (H : Graph (n + 1)) (u : Fin n) :
    degree (deleteZero H) u =
      if H.adj u.succ 0 = true then degree H u.succ - 1
      else degree H u.succ := by
  have hbij : (neighborhood (deleteZero H) u).card =
      ((neighborhood H u.succ).erase 0).card := by
    refine Finset.card_bij (fun v _ => v.succ) ?_ ?_ ?_
    · intro v hv
      have hadj : H.adj u.succ v.succ = true := by
        have h' := mem_neighborhood.mp hv
        exact h'
      exact Finset.mem_erase.mpr ⟨Fin.succ_ne_zero v, mem_neighborhood.mpr hadj⟩
    · intro v1 h1 v2 h2 heq
      exact Fin.succ_injective _ heq
    · intro x hx
      rcases Finset.mem_erase.mp hx with ⟨hx0, hxN⟩
      refine ⟨(x.pred hx0), ?_, Fin.succ_pred x hx0⟩
      apply mem_neighborhood.mpr
      show H.adj u.succ ((x.pred hx0).succ) = true
      rw [Fin.succ_pred]
      exact mem_neighborhood.mp hxN
  rw [degree, hbij]
  by_cases hadj : H.adj u.succ 0 = true
  · rw [if_pos hadj, Finset.card_erase_of_mem (mem_neighborhood.mpr hadj)]
    rfl
  · rw [if_neg hadj, Finset.erase_eq_of_not_mem
      (fun hmem => hadj (mem_neighborhood.mp hmem))]
    rfl

lemma decListO_spec : ∀ (D : ℕ) (t : List ℤ), D ≤ t.length →
    ∃ t2, decListO D t = some t2 ∧ t2.length = t.length ∧
      ∀ (i : ℕ) (h : i < t.length) (h2 : i < t2.length),
        t2.get ⟨i, h2⟩ =
          if i < D then t.get ⟨i, h⟩ - 1 else t.get ⟨i, h⟩ := by
  intro D
  induction D with
  | zero =>
    intro t _
    exact ⟨t, rfl, rfl, fun i h h2 => by simp⟩
  | succ D ih =>
    intro t hlen
    rcases t with _ | ⟨x, xs⟩
    · simp at hlen
    · have hxs : D ≤ xs.length := by
        simp at hlen
        omega
      rcases ih xs hxs with ⟨ys, hys, hyslen, hysget⟩
      refine ⟨(x - 1) :: ys, ?_, by simp [hyslen], ?_⟩
      · show (decListO D xs).map (fun ys => (x - 1) :: ys) = _
        rw [hys]
        rfl
      · intro i h h2
        rcases i with _ | i
        · rw [if_pos (by omega)]
          rfl
        · have hi : i < xs.length := by simpa using h
          have hi2 : i < ys.length := by simpa using h2
          show ys.get ⟨i, hi2⟩ = _
          rw [hysget i hi hi2]
          by_cases hiD : i < D
          · rw [if_pos hiD, if_pos (by omega)]
            rfl
          · rw [if_neg hiD, if_neg (by omega)]
            rfl

/-- One Havel-Hakimi step preserves graphicality: when d :: t is sorted
non-increasing, graphical, and d > 0, decrementing the first d entries of t
succeeds and leaves a graphical multiset. -/
lemma hh_step_graphical {d : ℤ} {t : List ℤ}
    (hsort : (d :: t).Sorted (fun a b : ℤ => b ≤ a))
    (hgr : graphicalZ ((d :: t : List ℤ) : Multiset ℤ)) (hd : 0 < d) :
    ∃ t2, decListO d.toNat t = some t2 ∧ t2.length = t.length ∧
      graphicalZ ((t2 : List ℤ) : Multiset ℤ) := by
  rcases exists_positional hsort hgr with ⟨H, hHl⟩
  have hm : 0 < t.length + 1 := Nat.succ_pos _
  have hget : ∀ i : Fin (t.length + 1),
      ((degree H i : ℤ)) = (d :: t).get ⟨i.val, i.isLt⟩ := by
    intro i
    have h1 := degreeListZ_get H i
    have h2 := List.get_of_eq hHl
      (⟨i.val, by simp [degreeListZ]⟩ : Fin (degreeListZ H).length)
    rw [← h1]
    exact h2
  have hd0 : degree H ⟨0, hm⟩ = d.toNat := by
    have h := hget ⟨0, hm⟩
    have h2 : (d :: t).get ⟨0, hm⟩ = d := rfl
    rw [h2] at h
    omega
  set f : Fin (t.length + 1) → ℕ := fun i => degree H i with hf
  have hanti : ∀ i j : Fin (t.length + 1), i ≤ j → f j ≤ f i := by
    intro i j hij
    rcases eq_or_lt_of_le hij with heq | hlt
    · rw [heq]
    · have hs := hsort.rel_get_of_lt
        (a := ⟨i.val, i.isLt⟩) (b := ⟨j.val, j.isLt⟩) hlt
      rw [← hget i, ← hget j] at hs
      exact_mod_cast hs
  have hdm : f ⟨0, hm⟩ < t.length + 1 := by
    have h := degree_le_card_pred H ⟨0, hm⟩
    have hlen : (d :: t).length = t.length + 1 := rfl
    show degree H ⟨0, hm⟩ < t.length + 1
    omega
  rcases exists_normalized hm f hanti hdm
      ((Finset.Ioc (⟨0, hm⟩ : Fin (t.length + 1)) ⟨f ⟨0, hm⟩, hdm⟩ \
        neighborhood H ⟨0, hm⟩).card) H (fun i => rfl) (le_refl _) with
    ⟨H2, hdeg2, hnbhd⟩
  have hfv0 : f ⟨0, hm⟩ = d.toNat := hd0
  have hDle : d.toNat ≤ t.length := by
    have h := hdm
    rw [hfv0] at h
    have hlen : (d :: t).length = t.length + 1 := rfl
    omega
  rcases decListO_spec d.toNat t hDle with ⟨t2, ht2, ht2len, ht2get⟩
  refine ⟨t2, ht2, ht2len, t.length, deleteZero H2, ?_⟩
  have hadj_iff : ∀ u : Fin t.length,
      (H2.adj u.succ 0 = true ↔ u.val < d.toNat) := by
    intro u
    have hzero : (0 : Fin (t.length + 1)) = ⟨0, hm⟩ := rfl
    constructor
    · intro hadj
      have hmem : u.succ ∈ neighborhood H2 ⟨0, hm⟩ := by
        apply mem_neighborhood.mpr
        rw [← H2.symm, ← hzero]
        exact hadj
      rw [hnbhd] at hmem
      have := Finset.mem_Ioc.mp hmem
      have hle : u.succ.val ≤ f ⟨0, hm⟩ := this.2
      rw [hfv0] at hle
      have : u.succ.val = u.val + 1 := Fin.val_succ u
      omega
    · intro hlt
      have hmem : u.succ ∈ Finset.Ioc (⟨0, hm⟩ : Fin (t.length + 1))
          ⟨f ⟨0, hm⟩, hdm⟩ := by
        refine Finset.mem_Ioc.mpr ⟨?_, ?_⟩
        · show (0 : ℕ) < u.succ.val
          rw [Fin.val_succ]
          omega
        · show u.succ.val ≤ f ⟨0, hm⟩
          rw [Fin.val_succ, hfv0]
          omega
      rw [← hnbhd] at hmem
      have := mem_neighborhood.mp hmem
      rw [← hzero, H2.symm] at this
      exact this
  have hlist : degreeListZ (deleteZero H2) = t2 := by
    apply List.ext_get
    · rw [degreeListZ_length, ht2len]
    · intro i h1 h2
      have hi : i < t.length := by
        have := degreeListZ_length (deleteZero H2)
        omega
      have hstart : (degreeListZ (deleteZero H2)).get ⟨i, h1⟩ =
          ((degree (deleteZero H2) (⟨i, hi⟩ : Fin t.length) : ℤ)) :=
        degreeListZ_get (deleteZero H2) ⟨i, hi⟩
      rw [hstart, degree_deleteZero]
      set u : Fin t.length := ⟨i, hi⟩ with hu
      have hsucc_deg : degree H2 u.succ = f u.succ := hdeg2 u.succ
      have hfu : ((f u.succ : ℤ)) = t.get ⟨i, hi⟩ := by
        have := hget u.succ
        have hcons : (d :: t).get ⟨u.succ.val, u.succ.isLt⟩ = t.get ⟨i, hi⟩ := rfl
        rw [← hcons]
        exact this
      by_cases hiD : i < d.toNat
      · have hadj : H2.adj u.succ 0 = true := (hadj_iff u).mpr hiD
        rw [if_pos hadj, hsucc_deg]
        have hpos : 0 < f u.succ := by
          have hmem : u.succ ∈ neighborhood H2 ⟨0, hm⟩ := by
            apply mem_neighborhood.mpr
            rw [show ((⟨0, hm⟩ : Fin (t.length + 1))) = 0 from rfl, H2.symm]
            exact hadj
          have hv0mem : (⟨0, hm⟩ : Fin (t.length + 1)) ∈ neighborhood H2 u.succ :=
            neighborhood_symm.mp hmem
          have : 0 < degree H2 u.succ :=
            Finset.card_pos.mpr ⟨⟨0, hm⟩, hv0mem⟩
          rw [hsucc_deg] at this
          exact this
        rw [ht2get i hi h2, if_pos hiD]
        rw [← hfu]
        push_cast [Nat.cast_sub hpos]
        ring
      · have hadj : H2.adj u.succ 0 = false := by
          cases hb : H2.adj u.succ 0 with
          | false => rfl
          | true => exact absurd ((hadj_iff u).mp hb) hiD
        rw [if_neg (by rw [hadj]; exact Bool.false_ne_true), hsucc_deg]
        rw [ht2get i hi h2, if_neg hiD]
        rw [← hfu]
  rw [← coe_degreeListZ, hlist]

lemma sortDescZ_sorted (l : List ℤ) :
    (sortDescZ l).Sorted (fun a b : ℤ => b ≤ a) :=
  List.sorted_insertionSort _ l

lemma sortDescZ_coe (l : List ℤ) :
    ((sortDescZ l : List ℤ) : Multiset ℤ) = (l : Multiset ℤ) :=
  Multiset.coe_eq_coe.mpr (List.perm_insertionSort _ l)

lemma sortDescZ_length (l : List ℤ) : (sortDescZ l).length = l.length :=
  (List.perm_insertionSort _ l).length_eq

lemma hhLoop_cons (fuel : ℕ) (d : ℤ) (t : List ℤ) :
    hhLoop fuel (d :: t) =
      if d ≤ 0 then some (d :: t)
      else
        match fuel with
        | 0 => none
        | fuel + 1 =>
          match decListO d.toNat t with
          | none => none
          | some t2 => hhLoop fuel (sortDescZ t2) := by
  cases fuel <;> rfl

/-- The Havel-Hakimi loop, started on a nonempty sorted graphical list with
fuel at least length - 1, terminates without any indexing error, and the final
list is all zeros. -/
lemma hhLoop_graphical :
    ∀ (fuel : ℕ) (l : List ℤ), l ≠ [] → l.Sorted (fun a b : ℤ => b ≤ a) →
      graphicalZ (l : Multiset ℤ) → l.length ≤ fuel + 1 →
      ∃ final, hhLoop fuel l = some final ∧ ∀ x ∈ final, x = 0 := by
  intro fuel
  induction fuel with
  | zero =>
    intro l hne hsort hgr hlen
    rcases l with _ | ⟨d, t⟩
    · exact absurd rfl hne
    · have ht : t = [] := by
        have : t.length = 0 := by simpa using hlen
        exact List.length_eq_zero.mp this
      subst ht
      have hd0 : d = 0 := graphicalZ_singleton (by simpa using hgr)
      subst hd0
      refine ⟨[0], ?_, ?_⟩
      · rw [hhLoop_cons, if_pos (le_refl 0)]
      · intro x hx
        simpa using hx
  | succ fuel ih =>
    intro l hne hsort hgr hlen
    rcases l with _ | ⟨d, t⟩
    · exact absurd rfl hne
    · by_cases hd : d ≤ 0
      · refine ⟨d :: t, by rw [hhLoop_cons, if_pos hd], ?_⟩
        intro x hx
        have hge : 0 ≤ x := graphicalZ_nonneg hgr x (by simpa using hx)
        have hle : x ≤ d := by
          rcases List.mem_cons.mp hx with h | h
          · exact le_of_eq h
          · exact (List.sorted_cons.mp hsort).1 x h
        omega
      · push_neg at hd
        have htne : t ≠ [] := by
          intro ht
          subst ht
          have : d = 0 := graphicalZ_singleton (by simpa using hgr)
          omega
        rcases hh_step_graphical hsort hgr hd with ⟨t2, ht2, ht2len, ht2gr⟩
        have hrec := ih (sortDescZ t2)
          (by
            have h1 : (sortDescZ t2).length = t.length := by
              rw [sortDescZ_length, ht2len]
            intro hc
            rw [hc] at h1
            exact htne (List.length_eq_zero.mp h1.symm))
          (sortDescZ_sorted t2)
          (by rw [sortDescZ_coe]; exact ht2gr)
          (by
            rw [sortDescZ_length, ht2len]
            have : (d :: t).length = t.length + 1 := rfl
            omega)
        rcases hrec with ⟨final, hfinal, hzero⟩
        refine ⟨final, ?_, hzero⟩
        rw [hhLoop_cons, if_neg (by omega)]
        show (match decListO d.toNat t with
          | none => none
          | some t2 => hhLoop fuel (sortDescZ t2)) = some final
        rw [ht2]
        exact hfinal

/-- **C7.** On every graph with n ≥ 1 vertices the Havel-Hakimi loop of
`residue` terminates within n iterations with no indexing error (the degree
sequence stays graphical throughout), the final sequence is all zeros, and the
returned value is both its length and its number of zero entries. -/
theorem residue_havel_hakimi {n : ℕ} (G : Graph n) (hn : 1 ≤ n) :
    ∃ final,
      hhLoop n (sortDescZ ((degree_sequence G).map (fun d => Int.ofNat d))) =
        some final ∧
      (∀ x ∈ final, x = 0) ∧
      residue G = some final.length ∧
      residue G = some (final.countP (fun x => decide (x = 0))) := by
  set l0 := sortDescZ ((degree_sequence G).map (fun d => Int.ofNat d)) with hl0
  have hmapeq : (degree_sequence G).map (fun d => Int.ofNat d) = degreeListZ G := by
    rw [degree_sequence, degreeListZ, List.map_map]
    rfl
  have hlen : l0.length = n := by
    rw [hl0, sortDescZ_length, hmapeq, degreeListZ_length]
  have hne : l0 ≠ [] := by
    intro hc
    rw [hc] at hlen
    simp at hlen
    omega
  have hgr : graphicalZ (l0 : Multiset ℤ) := by
    rw [hl0, sortDescZ_coe, hmapeq, coe_degreeListZ]
    exact ⟨n, G, rfl⟩
  rcases hhLoop_graphical n l0 hne (sortDescZ_sorted _) hgr (by omega) with
    ⟨final, hfinal, hzero⟩
  refine ⟨final, hfinal, hzero, ?_, ?_⟩
  · rw [residue, ← hl0, hfinal]
    rfl
  · rw [residue, ← hl0, hfinal]
    have : final.countP (fun x => decide (x = 0)) = final.length :=
      List.countP_eq_length.mpr (fun a ha => decide_eq_true (hzero a ha))
    rw [this]
    rfl

theorem residue_havel_hakimi_witness :
    (1 : ℕ) ≤ 2 ∧
    ∃ final,
      hhLoop 2 (sortDescZ ((degree_sequence pathGraph2).map (fun d => Int.ofNat d))) =
        some final ∧
      (∀ x ∈ final, x = 0) ∧
      residue pathGraph2 = some final.length ∧
      residue pathGraph2 = some (final.countP (fun x => decide (x = 0))) :=
  ⟨by decide, residue_havel_hakimi pathGraph2 (by decide)⟩

end GraphCalc
